import Mathlib

/-!
Verification of the tsla-ble-dash protocol core against its design
specification.  The TypeScript sources are shallowly embedded: byte
arrays (Uint8Array) become lists of natural numbers, JavaScript 32-bit
integer arithmetic is made explicit through toInt32, WebCrypto
primitives (ECDH, SHA-1, HMAC) are abstract deterministic functions,
and the adaptive BLE write loop is modelled with explicit state and
fuel.  Each embedded definition mirrors one function of the repository;
the theorems at the end of the file settle the specification claims.
-/

set_option maxRecDepth 8000

namespace TslaBle

/-- Byte arrays (Uint8Array) are lists of naturals; theorems carry
    explicit bounds where byte range matters. -/
abbrev Bytes := List Nat

/-! ## JavaScript 32-bit integer semantics -/

/-- ToInt32 of a mathematical integer: reduce to the signed 32-bit range,
    as JavaScript bitwise operators do with their operands. -/
def toInt32 (x : Int) : Int := (x + 2 ^ 31) % 2 ^ 32 - 2 ^ 31

/-- Signed right shift `x >> k` of JavaScript: arithmetic shift of the
    32-bit value, i.e. floor division by a power of two. -/
def jsShr (x : Int) (k : Nat) : Int := toInt32 x / 2 ^ k

/-- Low byte `x & 0xff` of JavaScript: the two's-complement low eight
    bits of the 32-bit value. -/
def jsAnd255 (x : Int) : Nat := (toInt32 x % 256).toNat

/-! ## UTF-8 encoding (TextEncoder) -/

/-- UTF-8 bytes of a single character, as TextEncoder produces them. -/
def utf8EncodeChar (c : Char) : Bytes :=
  let n := c.toNat
  if n < 0x80 then [n]
  else if n < 0x800 then [0xC0 ||| (n >>> 6), 0x80 ||| (n &&& 0x3F)]
  else if n < 0x10000 then
    [0xE0 ||| (n >>> 12), 0x80 ||| ((n >>> 6) &&& 0x3F), 0x80 ||| (n &&& 0x3F)]
  else
    [0xF0 ||| (n >>> 18), 0x80 ||| ((n >>> 12) &&& 0x3F),
     0x80 ||| ((n >>> 6) &&& 0x3F), 0x80 ||| (n &&& 0x3F)]

/-- UTF-8 bytes of a character sequence (TextEncoder.encode). -/
def utf8Encode (s : List Char) : Bytes := (s.map utf8EncodeChar).flatten

/-! ## src/lib/crypto.ts: metadata encoding -/

/-- Embedding of `concat(...arrays)` from src/lib/crypto.ts: allocate and
    copy the arrays in order, i.e. concatenate. -/
def concat (arrays : List Bytes) : Bytes := arrays.foldl (· ++ ·) []

/-- Embedding of the `CommandMetadata` interface of src/lib/crypto.ts.
    The VIN is kept as its character sequence. -/
structure CommandMetadata where
  vin : List Char
  epoch : Bytes
  counter : Nat
  expiresAt : Option Nat

/-- Embedding of `encodeMetadata` from src/lib/crypto.ts: four counter
    bytes produced with JavaScript shift-and-mask arithmetic, then the
    epoch bytes, then the UTF-8 bytes of the VIN. -/
def encodeMetadata (metadata : CommandMetadata) : Bytes :=
  concat
    [[jsAnd255 (metadata.counter : Int),
      jsAnd255 (jsShr (metadata.counter : Int) 8),
      jsAnd255 (jsShr (metadata.counter : Int) 16),
      jsAnd255 (jsShr (metadata.counter : Int) 24)],
     metadata.epoch,
     utf8Encode metadata.vin]

/-- Four-byte little-endian encoding, following the specification words
    "counter (4 bytes little-endian)"; compared against the embedding. -/
def le32 (c : Nat) : Bytes :=
  [c % 256, c / 2 ^ 8 % 256, c / 2 ^ 16 % 256, c / 2 ^ 24 % 256]

/-! ## src/lib/crypto.ts: session key derivation -/

/-- Deterministic WebCrypto primitives used by deriveSessionKeys.
    deriveBits takes the local private key, the peer public point and a
    bit length; digestSha1 and signHmacSha256 are the subtle.digest and
    subtle.sign operations.  WebCrypto specifies all three as pure
    functions of their inputs, which the embedding makes explicit. -/
structure SubtleCrypto where
  deriveBits : Bytes → Bytes → Nat → Bytes
  digestSha1 : Bytes → Bytes
  signHmacSha256 : Bytes → Bytes → Bytes

/-- Embedding of `hmacSha256` from src/lib/crypto.ts: import the raw key
    bytes and sign the message with HMAC-SHA-256. -/
def hmacSha256 (subtle : SubtleCrypto) (keyBytes message : Bytes) : Bytes :=
  subtle.signHmacSha256 keyBytes message

/-- Result record of deriveSessionKeys (`TeslaSessionKeys`); the opaque
    CryptoKey handle aesKey is the raw import of aesKeyBytes and carries
    no further data, so the embedding keeps the bytes only. -/
structure TeslaSessionKeys where
  sharedSecret : Bytes
  aesKeyBytes : Bytes
  sessionInfoKey : Bytes

/-- Character sequence of the literal string given to TextEncoder in
    deriveSessionKeys. -/
def sessionInfoChars : List Char :=
  ['s', 'e', 's', 's', 'i', 'o', 'n', ' ', 'i', 'n', 'f', 'o']

/-- Embedding of `deriveSessionKeys` from src/lib/crypto.ts: derive 256
    ECDH bits, hash them with SHA-1, keep the first 16 bytes as AEAD key,
    and derive the authentication key by HMAC over "session info". -/
def deriveSessionKeys (subtle : SubtleCrypto)
    (privateKey peerPublicKey : Bytes) : TeslaSessionKeys :=
  let sharedBytes := subtle.deriveBits privateKey peerPublicKey 256
  let sha1 := subtle.digestSha1 sharedBytes
  let aesKeyBytes := sha1.take 16
  let sessionInfoKey := hmacSha256 subtle aesKeyBytes (utf8Encode sessionInfoChars)
  { sharedSecret := sharedBytes
    aesKeyBytes := aesKeyBytes
    sessionInfoKey := sessionInfoKey }

/-! ## src/bluetooth.ts: TeslaBleTransport

The transport owns a mutable block length and write mode, frames
outgoing messages with a two-byte big-endian length prefix (the
HEADER_SIZE of 2 is pinned by the two prefix-byte writes in send and by
the repository's own transport tests), and reassembles notifications.
The GATT characteristic is modelled by which write functions it exposes
and its property flags; the outcomes of the GATT calls are an oracle
indexed by the call number, so tests such as "first write fails, later
writes succeed" are expressible.  The maximum message size and the
inbound-silence threshold come from a constants module that is not part
of the snapshot, so they stay parameters of the model.  Loops of the
source that can in principle run forever (writePacket's retry loop, and
the block loop under a zero block length) take explicit fuel; exhausted
fuel is reported as a separate outcome, distinct from any thrown
error. -/

/-- Write mode of the transport (`'with-response' | 'without-response'`). -/
inductive WriteMode where
  | withResponse
  | withoutResponse
deriving DecidableEq

/-- DOMException names distinguished by handleWriteError. -/
inductive JsErrorName where
  | dataError
  | notSupportedError
deriving DecidableEq

/-- Errors thrown by the write path: a DOMException with a name, or a
    plain Error (whose message the control flow never inspects). -/
inductive JsError where
  | domException (name : JsErrorName)
  | plainError
deriving DecidableEq

/-- The three GATT write entry points a characteristic can expose. -/
inductive WriteFn where
  | withResponseFn
  | withoutResponseFn
  | writeValueFn
deriving DecidableEq

/-- Shape of the TX characteristic: which write functions exist
    (`typeof … === 'function'`) and the declared properties (none models
    a properties object without that field). -/
structure GattCharacteristic where
  hasWriteValueWithResponse : Bool
  hasWriteValueWithoutResponse : Bool
  hasWriteValue : Bool
  propWrite : Option Bool
  propWriteWithoutResponse : Option Bool

/-- Outcome oracle for GATT write calls: call index, entry point and
    block written determine success (none) or a thrown error. -/
def WriteOracle := Nat → WriteFn → Bytes → Option JsError

/-- Mutable transport state touched by the write path, together with the
    trace of GATT calls performed (oldest first). -/
structure TransportState where
  blockLength : Nat
  writeMode : WriteMode
  calls : List (WriteFn × Bytes × Option JsError)
deriving DecidableEq

/-- MIN_BLOCK_LENGTH from src/bluetooth.ts: 23 (ATT default MTU) minus
    the 3-byte header. -/
def MIN_BLOCK_LENGTH : Nat := 20

/-- Embedding of `supportsWriteWithResponse`: a declared false property
    wins, otherwise presence of the function decides. -/
def supportsWriteWithResponse (char : GattCharacteristic) : Bool :=
  match char.propWrite with
  | some false => false
  | _ => char.hasWriteValueWithResponse

/-- Embedding of `supportsWriteWithoutResponse`. -/
def supportsWriteWithoutResponse (char : GattCharacteristic) : Bool :=
  match char.propWriteWithoutResponse with
  | some false => false
  | _ => char.hasWriteValueWithoutResponse

/-- Embedding of `tryFallbackWriteMode`: switch to the other write mode
    when the characteristic supports it; report whether a switch
    happened. -/
def tryFallbackWriteMode (char : GattCharacteristic) (st : TransportState) :
    Bool × TransportState :=
  if st.writeMode = WriteMode.withResponse ∧ supportsWriteWithoutResponse char then
    (true, { st with writeMode := WriteMode.withoutResponse })
  else if st.writeMode = WriteMode.withoutResponse ∧ supportsWriteWithResponse char then
    (true, { st with writeMode := WriteMode.withResponse })
  else
    (false, st)

/-- Embedding of `handleWriteError`: a DataError above the floor clamps
    blockLength to MIN_BLOCK_LENGTH and asks for a retry; a
    NotSupportedError defers to tryFallbackWriteMode; anything else is
    not recovered. -/
def handleWriteError (char : GattCharacteristic) (error : JsError)
    (st : TransportState) : Bool × TransportState :=
  match error with
  | JsError.plainError => (false, st)
  | JsError.domException JsErrorName.dataError =>
    if st.blockLength ≤ MIN_BLOCK_LENGTH then (false, st)
    else (true, { st with blockLength := MIN_BLOCK_LENGTH })
  | JsError.domException JsErrorName.notSupportedError =>
    tryFallbackWriteMode char st

/-- One GATT call: consult the oracle at the current call index and
    record the attempt in the trace. -/
def doCall (oracle : WriteOracle) (st : TransportState) (fn : WriteFn)
    (block : Bytes) : TransportState × Option JsError :=
  let res := oracle st.calls.length fn block
  ({ st with calls := st.calls ++ [(fn, block, res)] }, res)

/-- Embedding of `writeChunk`: use the active mode's function when it
    exists, otherwise fall back to the other mode and recurse, otherwise
    use plain writeValue, otherwise throw.  The recursion depth is at
    most two because a successful fallback lands on a mode whose
    function exists; fuel 2 therefore never runs out. -/
def writeChunk (char : GattCharacteristic) (oracle : WriteOracle) :
    Nat → TransportState → Bytes → TransportState × Option (Except JsError Unit)
  | 0, st, _ => (st, none)
  | fuel + 1, st, block =>
    if st.writeMode = WriteMode.withResponse ∧ char.hasWriteValueWithResponse then
      let r := doCall oracle st WriteFn.withResponseFn block
      (r.1, some (match r.2 with | none => Except.ok () | some e => Except.error e))
    else if st.writeMode = WriteMode.withoutResponse ∧ char.hasWriteValueWithoutResponse then
      let r := doCall oracle st WriteFn.withoutResponseFn block
      (r.1, some (match r.2 with | none => Except.ok () | some e => Except.error e))
    else
      let fb := tryFallbackWriteMode char st
      if fb.1 then writeChunk char oracle fuel fb.2 block
      else if char.hasWriteValue then
        let r := doCall oracle st WriteFn.writeValueFn block
        (r.1, some (match r.2 with | none => Except.ok () | some e => Except.error e))
      else (st, some (Except.error JsError.plainError))

/-- Embedding of the block loop of `writePacketOnce`: slice off blocks of
    the current blockLength and write them strictly in order, stopping at
    the first thrown error.  Fuel bounds the iteration count; any fuel
    above the packet length is enough while blockLength stays positive. -/
def writeBlocks (char : GattCharacteristic) (oracle : WriteOracle) :
    Nat → TransportState → Bytes → TransportState × Option (Except JsError Unit)
  | 0, st, _ => (st, none)
  | fuel + 1, st, remaining =>
    if remaining = [] then (st, some (Except.ok ()))
    else
      let block := remaining.take st.blockLength
      match writeChunk char oracle 2 st block with
      | (st1, none) => (st1, none)
      | (st1, some (Except.error e)) => (st1, some (Except.error e))
      | (st1, some (Except.ok ())) =>
        writeBlocks char oracle fuel st1 (remaining.drop st1.blockLength)

/-- Embedding of the retry loop of `writePacket`: attempt the whole
    packet, and on a thrown error consult handleWriteError; retry from
    the first block while it reports the error handled, otherwise
    rethrow.  The loop has no intrinsic bound, hence the fuel. -/
def writePacket (char : GattCharacteristic) (oracle : WriteOracle) :
    Nat → TransportState → Bytes → TransportState × Option (Except JsError Unit)
  | 0, st, _ => (st, none)
  | fuel + 1, st, packet =>
    match writeBlocks char oracle (packet.length + 1) st packet with
    | (st1, none) => (st1, none)
    | (st1, some (Except.ok ())) => (st1, some (Except.ok ()))
    | (st1, some (Except.error e)) =>
      let h := handleWriteError char e st1
      if h.1 then writePacket char oracle fuel h.2 packet
      else (h.2, some (Except.error e))

/-- Packet layout produced by `send`: two length-prefix bytes computed
    with shift-and-mask, then the payload. -/
def packetOf (payload : Bytes) : Bytes :=
  ((payload.length >>> 8) &&& 0xff) :: (payload.length &&& 0xff) :: payload

/-- Embedding of `send`: reject oversized payloads, prepend the 2-byte
    length prefix and hand the packet to writePacket.  The write chain
    serialization is immaterial for a single send. -/
def send (char : GattCharacteristic) (oracle : WriteOracle) (maxMsg : Nat)
    (fuel : Nat) (st : TransportState) (payload : Bytes) :
    TransportState × Option (Except JsError Unit) :=
  if payload.length > maxMsg then (st, some (Except.error JsError.plainError))
  else writePacket char oracle fuel st (packetOf payload)

/-! ## src/bluetooth.ts: notification reassembly -/

/-- Embedding of the `flush` loop: while at least the two header bytes
    are buffered, read the big-endian length; a length above the maximum
    message size drops the whole buffer; an incomplete message waits for
    more data; a complete message is sliced out and emitted, and the
    loop continues on the rest. -/
def flush (maxMsg : Nat) : Bytes → List Bytes × Bytes
  | [] => ([], [])
  | [b] => ([], [b])
  | b0 :: b1 :: rest =>
    let length := (b0 <<< 8) ||| b1
    if length > maxMsg then ([], [])
    else if rest.length < length then ([], b0 :: b1 :: rest)
    else
      let next := flush maxMsg (rest.drop length)
      ((rest.take length) :: next.1, next.2)
termination_by buffer => buffer.length
decreasing_by simp [List.length_drop]; omega

/-- Reassembly state: the partial buffer and the performance.now stamp of
    the previous fragment. -/
structure RxState where
  buffer : Bytes
  lastNotification : Nat
deriving DecidableEq

/-- Embedding of `onNotification`: ignore empty chunks; discard a stale
    partial buffer when the silence between fragments exceeded the
    threshold; append the fragment and flush, returning the emitted
    messages. -/
def onNotification (maxMsg rxTimeout : Nat) (st : RxState) (now : Nat)
    (chunk : Bytes) : RxState × List Bytes :=
  if chunk.length = 0 then (st, [])
  else
    let buf0 := if now - st.lastNotification > rxTimeout then [] else st.buffer
    let fl := flush maxMsg (buf0 ++ chunk)
    ({ buffer := fl.2, lastNotification := now }, fl.1)

/-- Delivery of a timed fragment sequence to the notification handler,
    collecting every emitted message in order. -/
def processNotifications (maxMsg rxTimeout : Nat) (st : RxState) :
    List (Nat × Bytes) → RxState × List Bytes
  | [] => (st, [])
  | (t, c) :: rest =>
    let r1 := onNotification maxMsg rxTimeout st t c
    let r2 := processNotifications maxMsg rxTimeout r1.1 rest
    (r2.1, r1.2 ++ r2.2)

/-- Consecutive blocks of at most n bytes, following the specification
    words for the split of a framed message; junk at n = 0, which the
    theorems exclude. -/
def chunksOf (n : Nat) (l : Bytes) : List Bytes :=
  if h : l = [] ∨ n = 0 then [] else l.take n :: chunksOf n (l.drop n)
termination_by l.length
decreasing_by
  simp [List.length_drop]
  cases l with
  | nil => simp at h
  | cons a as => simp at h ⊢; omega

/-! ## Session counter (state machine) -/

/-- Modelled from the spec: the repository snapshot does not contain
    src/lib/session.ts (only its callers and architecture notes), so the
    SessionContext counter bookkeeping follows §3 and §4.4 of the
    specification: a per-epoch 32-bit send counter, mutated only by the
    send path. -/
structure SessionContext where
  counter : Nat
  epoch : Bytes

/-- Modelled from the spec: one send attempt.  On a successful send the
    pending counter (current value plus one) stamps the message and is
    stored; on a failed send nothing is consumed and nothing changes
    ("increment the counter only after a successful send is queued"). -/
def sendStep (ctx : SessionContext) (ok : Bool) : SessionContext × Option Nat :=
  if ok then ({ ctx with counter := ctx.counter + 1 }, some (ctx.counter + 1))
  else (ctx, none)

/-- Modelled from the spec: a series of send attempts inside one epoch;
    returns the final context and the counter values consumed by the
    successful sends, in order. -/
def runSends (ctx : SessionContext) (results : List Bool) :
    SessionContext × List Nat :=
  match results with
  | [] => (ctx, [])
  | r :: rs =>
    let step := sendStep ctx r
    let rest := runSends step.1 rs
    (rest.1, step.2.toList ++ rest.2)

/-- Number of successful attempts in a result list. -/
def countOk (results : List Bool) : Nat := (results.filter (· = true)).length

/-! ## Hand-written DER tag-length-value codec (crypto module)

The repository's crypto module carries a minimal ASN.1 reader/writer
used to convert between the PKCS8 and SEC1 private-key containers.  The
reader's length accumulator is a JavaScript 32-bit value
(`(length << 8) | byte`), which the embedding keeps as explicit toInt32
arithmetic; for bytes below 256 the bitwise or with a zero low byte is
addition. -/

/-- Thrown parse errors of the DER reader and the container
    converters. -/
inductive Asn1Error where
  | offsetOutOfRange
  | missingLength
  | indefiniteLength
  | truncatedLength
  | lengthOutOfRange
  | invalidStructure
deriving DecidableEq

/-- One step `(length << 8) | b` of the length loop in 32-bit semantics;
    the or with a byte below 256 lands in the zero low byte, i.e. adds. -/
def jsLenStep (l : Int) (b : Nat) : Int := toInt32 (l * 256) + b

/-- The length loop of decodeAsn1Length over the count length bytes. -/
def jsLenFold (l : Int) (bs : Bytes) : Int := bs.foldl jsLenStep l

/-- Big-endian value of a byte sequence, following the specification
    words "a byte count of following big-endian length bytes". -/
def beVal (bs : Bytes) : Nat := bs.foldl (fun a b => a * 256 + b) 0

/-- Result record of decodeAsn1Length. -/
structure Asn1Length where
  length : Int
  lengthBytes : Nat
deriving DecidableEq

/-- Embedding of `decodeAsn1Length`: a first byte below 0x80 is the
    length itself; otherwise its low seven bits count the following
    big-endian length bytes, rejecting the indefinite form and truncated
    length bytes. -/
def decodeAsn1Length (bytes : Bytes) (offset : Nat) :
    Except Asn1Error Asn1Length :=
  if offset ≥ bytes.length then Except.error Asn1Error.missingLength
  else
    let first := bytes.getD offset 0
    if first &&& 0x80 = 0 then Except.ok ⟨first, 1⟩
    else
      let count := first &&& 0x7f
      if count = 0 then Except.error Asn1Error.indefiniteLength
      else if offset + 1 + count > bytes.length then
        Except.error Asn1Error.truncatedLength
      else
        Except.ok ⟨jsLenFold 0 ((bytes.drop (offset + 1)).take count),
          1 + count⟩

/-- Result record of decodeAsn1Element; content bounds stay integers
    because the 32-bit length accumulator can go negative. -/
structure Asn1Element where
  tag : Nat
  length : Int
  headerLength : Nat
  contentStart : Nat
  contentEnd : Int
  totalLength : Int
deriving DecidableEq

/-- Embedding of `decodeAsn1Element`: read the tag, decode the length,
    and reject an element whose declared content runs past the end of
    the input; no slicing happens here. -/
def decodeAsn1Element (bytes : Bytes) (offset : Nat) :
    Except Asn1Error Asn1Element :=
  if offset ≥ bytes.length then Except.error Asn1Error.offsetOutOfRange
  else
    let tag := bytes.getD offset 0
    match decodeAsn1Length bytes (offset + 1) with
    | Except.error e => Except.error e
    | Except.ok l =>
      let headerLength := 1 + l.lengthBytes
      let contentStart := offset + headerLength
      let contentEnd := (contentStart : Int) + l.length
      if contentEnd > (bytes.length : Int) then
        Except.error Asn1Error.lengthOutOfRange
      else
        Except.ok ⟨tag, l.length, headerLength, contentStart, contentEnd,
          (headerLength : Int) + l.length⟩

/-- Big-endian bytes of a positive number, as the unshift loop of
    encodeAsn1Length produces them (the loop's signed shift agrees with
    plain division below 2^31, the only lengths the theorems admit). -/
def beBytes (n : Nat) : Bytes :=
  if n = 0 then [] else beBytes (n >>> 8) ++ [n &&& 0xff]
termination_by n
decreasing_by
  rename_i h
  simp [Nat.shiftRight_eq_div_pow]
  omega

/-- Embedding of `encodeAsn1Length`: short form below 0x80, otherwise
    0x80 plus the byte count followed by the big-endian bytes. -/
def encodeAsn1Length (length : Nat) : Bytes :=
  if length < 0x80 then [length]
  else (0x80 ||| (beBytes length).length) :: beBytes length

/-- Embedding of `encodeAsn1`: tag, encoded length, content. -/
def encodeAsn1 (tag : Nat) (content : Bytes) : Bytes :=
  tag :: encodeAsn1Length content.length ++ content

/-- OID bytes 1.2.840.10045.2.1 (ecPublicKey). -/
def OID_EC_PUBLIC_KEY : Bytes := [0x2a, 0x86, 0x48, 0xce, 0x3d, 0x02, 0x01]

/-- OID bytes 1.2.840.10045.3.1.7 (prime256v1). -/
def OID_PRIME256V1 : Bytes := [0x2a, 0x86, 0x48, 0xce, 0x3d, 0x03, 0x01, 0x07]

/-- Version element of the PKCS8 wrapper (INTEGER 0), the `version`
    local of ecPrivateKeyToPkcs8. -/
def pkcs8Version : Bytes := encodeAsn1 0x02 [0x00]

/-- Algorithm identifier of the PKCS8 wrapper (SEQUENCE of the two
    OIDs), the `algorithm` local of ecPrivateKeyToPkcs8. -/
def pkcs8Algorithm : Bytes :=
  encodeAsn1 0x30
    (concat [encodeAsn1 0x06 OID_EC_PUBLIC_KEY, encodeAsn1 0x06 OID_PRIME256V1])

/-- Content of the outer PKCS8 SEQUENCE: version, algorithm and the
    OCTET STRING holding the SEC1 body. -/
def pkcs8Body (sec1 : Bytes) : Bytes :=
  concat [pkcs8Version, pkcs8Algorithm, encodeAsn1 0x04 sec1]

/-- Embedding of `ecPrivateKeyToPkcs8`: wrap a SEC1 body into the PKCS8
    SEQUENCE(version INTEGER 0, SEQUENCE(OID, OID), OCTET STRING). -/
def ecPrivateKeyToPkcs8 (sec1 : Bytes) : Bytes :=
  encodeAsn1 0x30 (pkcs8Body sec1)

/-- JavaScript Array.prototype.slice with a nonnegative start and a
    possibly negative end index (a negative end counts from the end of
    the array). -/
def jsSlice (a : Bytes) (s : Nat) (e : Int) : Bytes :=
  let e2 : Int := if e < 0 then max ((a.length : Int) + e) 0
    else min e (a.length : Int)
  (a.take e2.toNat).drop s

/-- Embedding of `pkcs8ToEcPrivateKey`: parse the outer SEQUENCE, the
    version INTEGER and the algorithm SEQUENCE, then slice the OCTET
    STRING content out as the SEC1 body.  Content ends are nonnegative
    on every path the theorems use, so the toNat on the running offset
    is exact there. -/
def pkcs8ToEcPrivateKey (pkcs8 : Bytes) : Except Asn1Error Bytes :=
  match decodeAsn1Element pkcs8 0 with
  | Except.error e => Except.error e
  | Except.ok root =>
    if root.tag ≠ 0x30 then Except.error Asn1Error.invalidStructure
    else
      match decodeAsn1Element pkcs8 root.contentStart with
      | Except.error e => Except.error e
      | Except.ok version =>
        if version.tag ≠ 0x02 then Except.error Asn1Error.invalidStructure
        else
          match decodeAsn1Element pkcs8 version.contentEnd.toNat with
          | Except.error e => Except.error e
          | Except.ok algorithm =>
            if algorithm.tag ≠ 0x30 then
              Except.error Asn1Error.invalidStructure
            else
              match decodeAsn1Element pkcs8 algorithm.contentEnd.toNat with
              | Except.error e => Except.error e
              | Except.ok privateKey =>
                if privateKey.tag ≠ 0x04 then
                  Except.error Asn1Error.invalidStructure
                else
                  Except.ok (jsSlice pkcs8 privateKey.contentStart
                    privateKey.contentEnd)

/-! ## PEM framing (arrayBufferToPem / decodePem)

The encoder emits `-----BEGIN <label>-----`, the base64 body wrapped at
64 columns, and `-----END <label>-----`.  The decoder is a regular
expression: its embedding implements that expression's semantics —
leftmost match start, a greedy dash-free label group with backtracking
against the closing dashes, and a lazy body group up to the first
matching END marker — with explicit fuel on the two scans.  btoa and
atob are the standard base64 of the platform. -/

/-- Base64 alphabet in index order. -/
def b64Alphabet : List Char :=
  ['A', 'B', 'C', 'D', 'E', 'F', 'G', 'H', 'I', 'J', 'K', 'L', 'M',
   'N', 'O', 'P', 'Q', 'R', 'S', 'T', 'U', 'V', 'W', 'X', 'Y', 'Z',
   'a', 'b', 'c', 'd', 'e', 'f', 'g', 'h', 'i', 'j', 'k', 'l', 'm',
   'n', 'o', 'p', 'q', 'r', 's', 't', 'u', 'v', 'w', 'x', 'y', 'z',
   '0', '1', '2', '3', '4', '5', '6', '7', '8', '9', '+', '/']

/-- Alphabet character of a 6-bit index. -/
def b64Char (i : Nat) : Char := b64Alphabet.getD i '='

/-- Index of a base64 character, none for a character outside the
    alphabet (as atob rejects it). -/
def b64Index (c : Char) : Option Nat :=
  let i := b64Alphabet.indexOf c
  if i < b64Alphabet.length then some i else none

/-- Embedding of btoa on the byte string: standard base64 with '='
    padding. -/
def btoa : Bytes → List Char
  | [] => []
  | [x] => [b64Char (x >>> 2), b64Char ((x &&& 3) <<< 4), '=', '=']
  | [x, y] =>
    [b64Char (x >>> 2), b64Char (((x &&& 3) <<< 4) ||| (y >>> 4)),
     b64Char ((y &&& 15) <<< 2), '=']
  | x :: y :: z :: rest =>
    b64Char (x >>> 2) :: b64Char (((x &&& 3) <<< 4) ||| (y >>> 4)) ::
      b64Char (((y &&& 15) <<< 2) ||| (z >>> 6)) :: b64Char (z &&& 63) ::
      btoa rest

/-- Embedding of atob on padded base64 text: decode four-character
    groups, with '=' padding allowed only at the very end. -/
def atob : List Char → Except Unit Bytes
  | [] => Except.ok []
  | c1 :: c2 :: c3 :: c4 :: rest =>
    match b64Index c1, b64Index c2 with
    | some i1, some i2 =>
      if c3 = '=' ∧ c4 = '=' ∧ rest = [] then
        Except.ok [(i1 <<< 2) ||| (i2 >>> 4)]
      else if c4 = '=' ∧ rest = [] then
        match b64Index c3 with
        | some i3 =>
          Except.ok [(i1 <<< 2) ||| (i2 >>> 4), ((i2 &&& 15) <<< 4) ||| (i3 >>> 2)]
        | none => Except.error ()
      else
        match b64Index c3, b64Index c4 with
        | some i3, some i4 =>
          match atob rest with
          | Except.ok bs =>
            Except.ok (((i1 <<< 2) ||| (i2 >>> 4)) ::
              (((i2 &&& 15) <<< 4) ||| (i3 >>> 2)) ::
              (((i3 &&& 3) <<< 6) ||| i4) :: bs)
          | Except.error e => Except.error e
        | _, _ => Except.error ()
    | _, _ => Except.error ()
  | _ => Except.error ()

/-- Characters the body filter of decodePem keeps: A-Z, a-z, 0-9, '+',
    '/' and '='. -/
def isB64Char (c : Char) : Bool :=
  (65 ≤ c.toNat && c.toNat ≤ 90) || (97 ≤ c.toNat && c.toNat ≤ 122) ||
    (48 ≤ c.toNat && c.toNat ≤ 57) || c == '+' || c == '/' || c == '='

/-- Line wrapping of the base64 body at 64 columns (fuel equals the
    character count, one unit per emitted line, which always
    suffices). -/
def wrap64Fuel : Nat → List Char → List Char
  | 0, s => s
  | fuel + 1, s =>
    if 64 ≤ s.length then s.take 64 ++ '\n' :: wrap64Fuel fuel (s.drop 64)
    else s

/-- Embedding of the `.{64}` global replace of arrayBufferToPem. -/
def wrap64 (s : List Char) : List Char := wrap64Fuel s.length s

/-- Literal `-----`. -/
def dashes5 : List Char := ['-', '-', '-', '-', '-']

/-- Literal `-----BEGIN `. -/
def litBEGIN : List Char :=
  ['-', '-', '-', '-', '-', 'B', 'E', 'G', 'I', 'N', ' ']

/-- Literal `-----END `. -/
def litEND : List Char := ['-', '-', '-', '-', '-', 'E', 'N', 'D', ' ']

/-- Embedding of `arrayBufferToPem`: BEGIN marker, newline, wrapped
    base64 body, newline, END marker. -/
def arrayBufferToPem (label : List Char) (data : Bytes) : List Char :=
  (litBEGIN ++ label ++ dashes5) ++ '\n' ::
    (wrap64 (btoa data) ++ '\n' :: (litEND ++ label ++ dashes5))

/-- Whether the pattern occurs at position i of the text. -/
def matchesAt (s : List Char) (i : Nat) (pat : List Char) : Bool :=
  (s.drop i).take pat.length == pat

/-- Lazy scan of the body group: the first position at or after j where
    the END marker for the captured label matches. -/
def findEnd (s label : List Char) (j : Nat) : Nat → Option Nat
  | 0 => none
  | fuel + 1 =>
    if matchesAt s j (litEND ++ label ++ dashes5) then some j
    else findEnd s label (j + 1) fuel

/-- Backtracking of the greedy label group: try the label lengths from
    the full dash-free run downwards; on each, require the closing
    dashes and a matching END marker.  Returns the captured label and
    the body bounds. -/
def tryLabel (s : List Char) (i : Nat) (run : List Char) :
    Nat → Option (List Char × Nat × Nat)
  | 0 => none
  | k + 1 =>
    let label := run.take (k + 1)
    if matchesAt s (i + 11 + (k + 1)) dashes5 then
      match findEnd s label (i + 11 + (k + 1) + 5) (s.length + 1) with
      | some j => some (label, i + 11 + (k + 1) + 5, j)
      | none => tryLabel s i run k
    else tryLabel s i run k

/-- One attempt of the regular expression at start position i. -/
def regexMatchAt (s : List Char) (i : Nat) : Option (List Char × Nat × Nat) :=
  if matchesAt s i litBEGIN then
    let run := (s.drop (i + 11)).takeWhile (fun c => c ≠ '-')
    tryLabel s i run run.length
  else none

/-- Leftmost-match scan of the regular expression over the text. -/
def regexSearch (s : List Char) (i : Nat) : Nat → Option (List Char × Nat × Nat)
  | 0 => none
  | fuel + 1 =>
    match regexMatchAt s i with
    | some r => some r
    | none => regexSearch s (i + 1) fuel

/-- JavaScript whitespace test used by String.prototype.trim (the
    characters that can appear around a PEM label). -/
def isWS (c : Char) : Bool :=
  c == ' ' || c == '\n' || c == '\t' || c == '\r' || c == '\x0b' || c == '\x0c'

/-- Embedding of String.prototype.trim. -/
def jsTrim (l : List Char) : List Char :=
  ((l.dropWhile isWS).reverse.dropWhile isWS).reverse

/-- Embedding of `decodePem`: match the PEM regular expression, trim the
    captured label, strip every non-base64 character from the body and
    decode it. -/
def decodePem (pem : List Char) : Except Unit (List Char × Bytes) :=
  match regexSearch pem 0 (pem.length + 1) with
  | none => Except.error ()
  | some (rawLabel, bodyStart, bodyEnd) =>
    let body := (pem.drop bodyStart).take (bodyEnd - bodyStart)
    match atob (body.filter isB64Char) with
    | Except.ok bytes => Except.ok (jsTrim rawLabel, bytes)
    | Except.error _ => Except.error ()

/-- Import/export errors of the PEM key helpers. -/
inductive KeyImportError where
  | invalidPem
  | unsupportedLabel
deriving DecidableEq

/-- Label `PRIVATE KEY`. -/
def labelPkcs8 : List Char :=
  ['P', 'R', 'I', 'V', 'A', 'T', 'E', ' ', 'K', 'E', 'Y']

/-- Label `EC PRIVATE KEY`. -/
def labelSec1 : List Char :=
  ['E', 'C', ' ', 'P', 'R', 'I', 'V', 'A', 'T', 'E', ' ', 'K', 'E', 'Y']

/-- Embedding of `importPrivateKeyPem`: decode the PEM block, accept a
    PKCS8 body as is and convert an EC PRIVATE KEY body to PKCS8, and
    return the PKCS8 bytes handed to subtle.importKey. -/
def importPrivateKeyPem (pem : List Char) : Except KeyImportError Bytes :=
  match decodePem pem with
  | Except.error _ => Except.error KeyImportError.invalidPem
  | Except.ok (label, data) =>
    if label = labelPkcs8 then Except.ok data
    else if label = labelSec1 then Except.ok (ecPrivateKeyToPkcs8 data)
    else Except.error KeyImportError.unsupportedLabel

/-- Embedding of `exportPrivateKeyPem`: convert the exported PKCS8 bytes
    to the SEC1 body and emit the EC PRIVATE KEY PEM container. -/
def exportPrivateKeyPem (pkcs8 : Bytes) : Except Asn1Error (List Char) :=
  match pkcs8ToEcPrivateKey pkcs8 with
  | Except.error e => Except.error e
  | Except.ok sec1 => Except.ok (arrayBufferToPem labelSec1 sec1)

/-- GATT entry point belonging to a write mode. -/
def modeFn : WriteMode → WriteFn
  | WriteMode.withResponse => WriteFn.withResponseFn
  | WriteMode.withoutResponse => WriteFn.withoutResponseFn

/-- Whether the characteristic exposes the function of a mode. -/
def hasModeFn (char : GattCharacteristic) : WriteMode → Bool
  | WriteMode.withResponse => char.hasWriteValueWithResponse
  | WriteMode.withoutResponse => char.hasWriteValueWithoutResponse

/-- Transport in which every write succeeds. -/
def allOkOracle : WriteOracle := fun _ _ _ => none

/-- Transport that rejects any write larger than 20 bytes with the
    oversize DOMException, as in testable property 7 of the spec. -/
def mtu20Oracle : WriteOracle := fun _ _ block =>
  if block.length > 20 then some (JsError.domException JsErrorName.dataError)
  else none

/-- Transport in which every write reports the oversize DOMException. -/
def alwaysOversizeOracle : WriteOracle := fun _ _ _ =>
  some (JsError.domException JsErrorName.dataError)

/-- Transport in which every write reports the unsupported-write-mode
    DOMException, in both modes. -/
def notSupportedOracle : WriteOracle := fun _ _ _ =>
  some (JsError.domException JsErrorName.notSupportedError)

/-- Transport in which with-response writes report the unsupported-mode
    DOMException and without-response writes succeed, mirroring the
    fallback test of the repository. -/
def nsOnWithResponseOracle : WriteOracle := fun _ fn _ =>
  if fn = WriteFn.withResponseFn then
    some (JsError.domException JsErrorName.notSupportedError)
  else none

/-- Characteristic exposing both write functions with both properties
    declared true. -/
def fullChar : GattCharacteristic :=
  { hasWriteValueWithResponse := true
    hasWriteValueWithoutResponse := true
    hasWriteValue := true
    propWrite := some true
    propWriteWithoutResponse := some true }

/-- Characteristic exposing only the with-response write function. -/
def responseOnlyChar : GattCharacteristic :=
  { hasWriteValueWithResponse := true
    hasWriteValueWithoutResponse := false
    hasWriteValue := false
    propWrite := some true
    propWriteWithoutResponse := none }

/-! ## Theorems -/

theorem toInt32_eq_self {x : Int} (h1 : -(2 ^ 31) ≤ x) (h2 : x < 2 ^ 31) :
    toInt32 x = x := by
  unfold toInt32
  omega

theorem runSends_counter (ctx : SessionContext) (results : List Bool) :
    (runSends ctx results).1.counter = ctx.counter + countOk results := by
  induction results generalizing ctx with
  | nil => simp [runSends, countOk]
  | cons r rs ih =>
    cases r <;> simp [runSends, sendStep, countOk, ih] <;>
      simp [countOk] at * <;> omega

theorem runSends_epoch (ctx : SessionContext) (results : List Bool) :
    (runSends ctx results).1.epoch = ctx.epoch := by
  induction results generalizing ctx with
  | nil => rfl
  | cons r rs ih => cases r <;> simp [runSends, sendStep, ih]

theorem runSends_used (ctx : SessionContext) (results : List Bool) :
    (runSends ctx results).2 =
      (List.range (countOk results)).map (fun i => ctx.counter + 1 + i) := by
  induction results generalizing ctx with
  | nil => simp [runSends, countOk]
  | cons r rs ih =>
    cases r with
    | false => simpa [runSends, sendStep, countOk] using ih ctx
    | true =>
      simp only [runSends, sendStep, if_pos rfl, Option.toList, countOk,
        List.filter, ih]
      simp [List.range_succ_eq_map, List.map_map, Function.comp, countOk]
      intro a _
      omega

theorem jsByte_shr (c : Nat) (k : Nat) (hk : k ≤ 24) :
    jsAnd255 (jsShr (c : Int) k) = c / 2 ^ k % 256 := by
  unfold jsAnd255 jsShr toInt32
  interval_cases k <;> omega

theorem jsByte_zero (c : Nat) : jsAnd255 (c : Int) = c % 256 := by
  unfold jsAnd255 toInt32
  omega

/-- C5: encodeMetadata returns exactly the 4-byte little-endian counter,
    then the epoch bytes unchanged, then the UTF-8 bytes of the VIN, in
    that order and nothing else. -/
theorem encodeMetadata_layout (m : CommandMetadata) (h : m.counter < 2 ^ 32) :
    encodeMetadata m = le32 m.counter ++ m.epoch ++ utf8Encode m.vin := by
  have h0 := jsByte_zero m.counter
  have h8 := jsByte_shr m.counter 8 (by omega)
  have h16 := jsByte_shr m.counter 16 (by omega)
  have h24 := jsByte_shr m.counter 24 (by omega)
  simp [encodeMetadata, concat, le32, h0, h8, h16, h24]

/-- Witness for C5 at a concrete metadata value. -/
theorem encodeMetadata_layout_witness :
    encodeMetadata
        { vin := ['5', 'Y', 'J'], epoch := [9, 8], counter := 3735928559,
          expiresAt := none } =
      le32 3735928559 ++ [9, 8] ++ utf8Encode ['5', 'Y', 'J'] :=
  encodeMetadata_layout
    { vin := ['5', 'Y', 'J'], epoch := [9, 8], counter := 3735928559,
      expiresAt := none } (by decide)

/-- C6: evaluation of encodeMetadata at the failing input of the claim:
    two CommandMetadata values that agree on counter, epoch and VIN but
    differ in expiresAt encode to the same associated-data byte string,
    because encodeMetadata never reads expiresAt. -/
theorem encodeMetadata_ignores_expiresAt :
    encodeMetadata
        { vin := ['5', 'Y', 'J'], epoch := [1, 2], counter := 5,
          expiresAt := none } =
      encodeMetadata
        { vin := ['5', 'Y', 'J'], epoch := [1, 2], counter := 5,
          expiresAt := some 30 } := rfl

/-- C2: deriveSessionKeys returns the ECDH shared secret of the requested
    256 bits, takes exactly the first 16 bytes of its SHA-1 digest as the
    AEAD key, keys HMAC-SHA-256 with those bytes over the literal
    "session info" for the authentication key, and is deterministic (the
    embedding of the WebCrypto primitives is functional, so two
    invocations on the same keys are definitionally equal). -/
theorem deriveSessionKeys_spec (subtle : SubtleCrypto) (priv pub : Bytes)
    (hbits : (subtle.deriveBits priv pub 256).length = 256 / 8)
    (hsha : ∀ b : Bytes, (subtle.digestSha1 b).length = 20) :
    (deriveSessionKeys subtle priv pub).sharedSecret =
        subtle.deriveBits priv pub 256 ∧
    (deriveSessionKeys subtle priv pub).sharedSecret.length = 32 ∧
    (deriveSessionKeys subtle priv pub).aesKeyBytes =
        (subtle.digestSha1 (subtle.deriveBits priv pub 256)).take 16 ∧
    (deriveSessionKeys subtle priv pub).aesKeyBytes.length = 16 ∧
    (deriveSessionKeys subtle priv pub).sessionInfoKey =
        subtle.signHmacSha256 (deriveSessionKeys subtle priv pub).aesKeyBytes
          (utf8Encode sessionInfoChars) ∧
    utf8Encode sessionInfoChars =
        [0x73, 0x65, 0x73, 0x73, 0x69, 0x6F, 0x6E, 0x20,
         0x69, 0x6E, 0x66, 0x6F] ∧
    deriveSessionKeys subtle priv pub = deriveSessionKeys subtle priv pub := by
  refine ⟨rfl, by simpa using hbits, rfl, ?_, rfl, by decide, rfl⟩
  simp [deriveSessionKeys, List.length_take, hsha]

/-- Witness for C2 with a concrete instantiation of the WebCrypto
    primitives. -/
theorem deriveSessionKeys_spec_witness :
    (deriveSessionKeys
        { deriveBits := fun _ _ n => List.replicate (n / 8) 7,
          digestSha1 := fun b => List.range 20,
          signHmacSha256 := fun k m => k ++ m } [1] [2]).aesKeyBytes =
      ((List.range 20 : Bytes).take 16) ∧
    (deriveSessionKeys
        { deriveBits := fun _ _ n => List.replicate (n / 8) 7,
          digestSha1 := fun b => List.range 20,
          signHmacSha256 := fun k m => k ++ m } [1] [2]).aesKeyBytes.length =
      16 := by
  have h := deriveSessionKeys_spec
    { deriveBits := fun _ _ n => List.replicate (n / 8) 7,
      digestSha1 := fun b => List.range 20,
      signHmacSha256 := fun k m => k ++ m } [1] [2]
    (by simp) (fun b => by simp)
  exact ⟨h.2.2.1, h.2.2.2.1⟩

/-- C10: within a single epoch, after N successful sends the counter
    equals its initial value plus N, the counter never decreases along
    any prefix of the attempt sequence, the epoch is untouched, and the
    counter values consumed by successful sends are pairwise distinct.
    The session module is modelled from the spec (src/lib/session.ts is
    not part of the snapshot). -/
theorem counter_monotonic_per_epoch (ctx : SessionContext)
    (results p q : List Bool) (hsplit : results = p ++ q) :
    (runSends ctx results).1.counter = ctx.counter + countOk results ∧
    (runSends ctx results).1.epoch = ctx.epoch ∧
    (runSends ctx p).1.counter ≤ (runSends ctx results).1.counter ∧
    (runSends ctx results).2.Nodup := by
  refine ⟨runSends_counter ctx results, runSends_epoch ctx results, ?_, ?_⟩
  · rw [runSends_counter ctx results, runSends_counter ctx p, hsplit]
    have : countOk p ≤ countOk (p ++ q) := by
      simp [countOk, List.filter_append]
    omega
  · rw [runSends_used ctx results]
    exact (List.nodup_range (countOk results)).map fun a b h => by omega

/-- Witness for C10 on a concrete attempt sequence. -/
theorem counter_monotonic_per_epoch_witness :
    (runSends ⟨7, [1]⟩ [true, false, true]).1.counter =
        7 + countOk [true, false, true] ∧
    (runSends ⟨7, [1]⟩ [true, false, true]).1.epoch = [1] ∧
    (runSends ⟨7, [1]⟩ [true]).1.counter ≤
        (runSends ⟨7, [1]⟩ [true, false, true]).1.counter ∧
    (runSends ⟨7, [1]⟩ [true, false, true]).2.Nodup :=
  counter_monotonic_per_epoch ⟨7, [1]⟩ [true, false, true] [true]
    [false, true] rfl

theorem chunksOf_nil (n : Nat) : chunksOf n [] = [] := by
  rw [chunksOf]
  simp

theorem chunksOf_cons (n : Nat) (l : Bytes) (hl : l ≠ []) (hn : n ≠ 0) :
    chunksOf n l = l.take n :: chunksOf n (l.drop n) := by
  rw [chunksOf]
  simp [hl, hn]

theorem chunksOf_flatten (n : Nat) (hn : n ≠ 0) (l : Bytes) :
    (chunksOf n l).flatten = l := by
  have key : ∀ (m : Nat) (l : Bytes), l.length ≤ m → (chunksOf n l).flatten = l := by
    intro m
    induction m with
    | zero =>
      intro l h
      have : l = [] := List.length_eq_zero.mp (Nat.le_zero.mp h)
      subst this
      simp [chunksOf_nil]
    | succ m ih =>
      intro l h
      by_cases hl : l = []
      · subst hl; simp [chunksOf_nil]
      · rw [chunksOf_cons n l hl hn]
        simp only [List.flatten_cons]
        rw [ih (l.drop n) (by
          have h1 : 1 ≤ l.length := by
            cases l with
            | nil => simp at hl
            | cons a as => simp
          simp [List.length_drop]
          omega)]
        exact List.take_append_drop n l
  exact key l.length l le_rfl

theorem chunksOf_mem (n : Nat) (hn : n ≠ 0) (l : Bytes) :
    ∀ blk ∈ chunksOf n l, blk.length ≤ n ∧ blk ≠ [] := by
  have key : ∀ (m : Nat) (l : Bytes), l.length ≤ m →
      ∀ blk ∈ chunksOf n l, blk.length ≤ n ∧ blk ≠ [] := by
    intro m
    induction m with
    | zero =>
      intro l h blk hblk
      have : l = [] := List.length_eq_zero.mp (Nat.le_zero.mp h)
      subst this
      simp [chunksOf_nil] at hblk
    | succ m ih =>
      intro l h blk hblk
      by_cases hl : l = []
      · subst hl; simp [chunksOf_nil] at hblk
      · rw [chunksOf_cons n l hl hn] at hblk
        cases hblk with
        | head =>
          constructor
          · simpa using List.length_take_le n l
          · cases l with
            | nil => simp at hl
            | cons a as =>
              cases n with
              | zero => simp at hn
              | succ k => simp [List.take]
        | tail _ hmem =>
          apply ih (l.drop n) _ blk hmem
          have h1 : 1 ≤ l.length := by
            cases l with
            | nil => simp at hl
            | cons a as => simp
          simp [List.length_drop]
          omega
  exact key l.length l le_rfl

theorem writeChunk_active (char : GattCharacteristic) (oracle : WriteOracle)
    (st : TransportState) (block : Bytes) (fuel : Nat)
    (h : hasModeFn char st.writeMode = true) :
    writeChunk char oracle (fuel + 1) st block =
      ({ st with calls := st.calls ++
          [(modeFn st.writeMode, block,
            oracle st.calls.length (modeFn st.writeMode) block)] },
       some (match oracle st.calls.length (modeFn st.writeMode) block with
             | none => Except.ok ()
             | some e => Except.error e)) := by
  cases hm : st.writeMode with
  | withResponse =>
    rw [hm] at h
    simp only [hasModeFn] at h
    simp [writeChunk, hm, h, doCall, modeFn]
  | withoutResponse =>
    rw [hm] at h
    simp only [hasModeFn] at h
    simp [writeChunk, hm, h, doCall, modeFn]

theorem writeBlocks_ok (char : GattCharacteristic) (oracle : WriteOracle)
    (mode : WriteMode) (hchar : hasModeFn char mode = true) :
    ∀ (fuel : Nat) (remaining : Bytes) (st : TransportState),
      st.writeMode = mode → 1 ≤ st.blockLength → remaining.length < fuel →
      (∀ i blk, blk.length ≤ st.blockLength → oracle i (modeFn mode) blk = none) →
      writeBlocks char oracle fuel st remaining =
        ({ st with calls := st.calls ++
            ((chunksOf st.blockLength remaining).map
              (fun blk => (modeFn mode, blk, none))) },
         some (Except.ok ())) := by
  intro fuel
  induction fuel with
  | zero =>
    intro remaining st _ _ hlen _
    omega
  | succ fuel ih =>
    intro remaining st hmode hbl hlen hok
    by_cases hr : remaining = []
    · subst hr
      simp [writeBlocks, chunksOf_nil]
    · have hblock : (remaining.take st.blockLength).length ≤ st.blockLength := by
        simpa using List.length_take_le st.blockLength remaining
      have hca := writeChunk_active char oracle st (remaining.take st.blockLength) 1
        (by rw [hmode]; exact hchar)
      norm_num at hca
      have h1 : 1 ≤ remaining.length := by
        cases remaining with
        | nil => simp at hr
        | cons a as => simp
      have ihh := ih (remaining.drop st.blockLength)
        ⟨st.blockLength, st.writeMode,
          st.calls ++ [(modeFn st.writeMode, remaining.take st.blockLength, none)]⟩
        hmode hbl (by simp [List.length_drop]; omega) hok
      rw [writeBlocks, if_neg hr]
      dsimp only
      rw [hca, hmode, hok st.calls.length _ hblock]
      rw [hmode] at ihh
      dsimp only at ihh ⊢
      rw [ihh]
      rw [chunksOf_cons st.blockLength remaining hr (by omega)]
      simp

theorem writeBlocks_first_error (char : GattCharacteristic)
    (oracle : WriteOracle) (st : TransportState) (remaining : Bytes)
    (fuel : Nat) (e : JsError)
    (hmode : hasModeFn char st.writeMode = true)
    (hr : remaining ≠ [])
    (hfail : oracle st.calls.length (modeFn st.writeMode)
        (remaining.take st.blockLength) = some e) :
    writeBlocks char oracle (fuel + 1) st remaining =
      ({ st with calls := st.calls ++
          [(modeFn st.writeMode, remaining.take st.blockLength, some e)] },
       some (Except.error e)) := by
  rw [writeBlocks, if_neg hr]
  have hca := writeChunk_active char oracle st (remaining.take st.blockLength) 1 hmode
  norm_num at hca
  simp only []
  rw [hca, hfail]

theorem writePacket_ok (char : GattCharacteristic) (oracle : WriteOracle)
    (mode : WriteMode) (hchar : hasModeFn char mode = true)
    (st : TransportState) (packet : Bytes) (fuel : Nat)
    (hmode : st.writeMode = mode) (hbl : 1 ≤ st.blockLength)
    (hok : ∀ i blk, blk.length ≤ st.blockLength → oracle i (modeFn mode) blk = none) :
    writePacket char oracle (fuel + 1) st packet =
      ({ st with calls := st.calls ++
          ((chunksOf st.blockLength packet).map
            (fun blk => (modeFn mode, blk, none))) },
       some (Except.ok ())) := by
  rw [writePacket]
  rw [writeBlocks_ok char oracle mode hchar (packet.length + 1) packet st hmode hbl
    (by omega) hok]

theorem supportsWithoutResponse_fn (char : GattCharacteristic)
    (h : supportsWriteWithoutResponse char = true) :
    char.hasWriteValueWithoutResponse = true := by
  unfold supportsWriteWithoutResponse at h
  cases hp : char.propWriteWithoutResponse with
  | none => rw [hp] at h; exact h
  | some b =>
    cases b with
    | false => rw [hp] at h; simp at h
    | true => rw [hp] at h; exact h

/-- C3 counterexample: at blockLength 80 an oversize DataError makes the
    framer clamp blockLength directly to the 20-byte floor, not halve it
    to 40; the one-step clamp is also what the repository's own transport
    test asserts. -/
theorem handleWriteError_clamps_not_halves :
    handleWriteError fullChar (JsError.domException JsErrorName.dataError)
        ⟨80, WriteMode.withResponse, []⟩ =
      (true, ⟨20, WriteMode.withResponse, []⟩) ∧ (20 : Nat) ≠ 80 / 2 := by
  constructor
  · rfl
  · decide

/-- C3 amended: on an oversize DataError the framer drops blockLength in
    one step to the 20-byte floor and retries the whole message from its
    first block, delivering it in floor-sized blocks; when blockLength is
    already at the floor the oversize error is propagated to the send
    caller. -/
theorem oversize_recovery_spec (char : GattCharacteristic) (mode : WriteMode)
    (payload : Bytes) (st : TransportState) (maxMsg : Nat)
    (hchar : hasModeFn char mode = true)
    (hmode : st.writeMode = mode)
    (hbl : 20 < st.blockLength)
    (hlen : 18 < payload.length) (hmax : payload.length ≤ maxMsg)
    (hcalls : st.calls = []) :
    (send char mtu20Oracle maxMsg 2 st payload).2 = some (Except.ok ()) ∧
    (send char mtu20Oracle maxMsg 2 st payload).1.blockLength =
      MIN_BLOCK_LENGTH ∧
    (send char mtu20Oracle maxMsg 2 st payload).1.calls =
      (modeFn mode, (packetOf payload).take st.blockLength,
          some (JsError.domException JsErrorName.dataError)) ::
        ((chunksOf MIN_BLOCK_LENGTH (packetOf payload)).map
          (fun blk => (modeFn mode, blk, none))) ∧
    (chunksOf MIN_BLOCK_LENGTH (packetOf payload)).flatten = packetOf payload ∧
    (send char alwaysOversizeOracle maxMsg 2
        ⟨MIN_BLOCK_LENGTH, mode, []⟩ payload).2 =
      some (Except.error (JsError.domException JsErrorName.dataError)) := by
  have hpack : packetOf payload ≠ [] := by simp [packetOf]
  have hplen : 20 < (packetOf payload).length := by simp [packetOf]; omega
  have htake : ((packetOf payload).take st.blockLength).length > 20 := by
    rw [List.length_take]
    omega
  have hsendeq : send char mtu20Oracle maxMsg 2 st payload =
      writePacket char mtu20Oracle 2 st (packetOf payload) := by
    rw [send, if_neg (show ¬(payload.length > maxMsg) by omega)]
  have hfail : mtu20Oracle st.calls.length (modeFn st.writeMode)
      ((packetOf payload).take st.blockLength) =
      some (JsError.domException JsErrorName.dataError) := by
    simp only [mtu20Oracle]
    rw [if_pos htake]
  have hok20 : ∀ i blk, blk.length ≤ MIN_BLOCK_LENGTH →
      mtu20Oracle i (modeFn mode) blk = none := by
    intro i blk hb
    simp only [MIN_BLOCK_LENGTH] at hb
    simp only [mtu20Oracle]
    rw [if_neg (by omega)]
  have hmain : writePacket char mtu20Oracle 2 st (packetOf payload) =
      (⟨MIN_BLOCK_LENGTH, mode,
        ((modeFn mode, (packetOf payload).take st.blockLength,
            some (JsError.domException JsErrorName.dataError)) ::
          ((chunksOf MIN_BLOCK_LENGTH (packetOf payload)).map
            (fun blk => (modeFn mode, blk, none))))⟩,
       some (Except.ok ())) := by
    have h2 : (2 : Nat) = 1 + 1 := rfl
    rw [h2, writePacket]
    rw [writeBlocks_first_error char mtu20Oracle st (packetOf payload)
      (packetOf payload).length (JsError.domException JsErrorName.dataError)
      (by rw [hmode]; exact hchar) hpack hfail]
    dsimp only
    rw [handleWriteError]
    rw [if_neg (show ¬(st.blockLength ≤ MIN_BLOCK_LENGTH) by
      simp only [MIN_BLOCK_LENGTH]; omega)]
    dsimp only
    have hwp := writePacket_ok char mtu20Oracle mode hchar
      ⟨MIN_BLOCK_LENGTH, st.writeMode,
        st.calls ++ [(modeFn st.writeMode,
          (packetOf payload).take st.blockLength,
          some (JsError.domException JsErrorName.dataError))]⟩
      (packetOf payload) 0 hmode (by simp [MIN_BLOCK_LENGTH]) hok20
    norm_num at hwp
    rw [hwp]
    rw [hmode, hcalls]
    simp
  refine ⟨?_, ?_, ?_, ?_, ?_⟩
  · rw [hsendeq, hmain]
  · rw [hsendeq, hmain]
  · rw [hsendeq, hmain]
  · exact chunksOf_flatten MIN_BLOCK_LENGTH (by simp [MIN_BLOCK_LENGTH]) _
  · rw [send, if_neg (show ¬(payload.length > maxMsg) by omega)]
    have h2 : (2 : Nat) = 1 + 1 := rfl
    rw [h2, writePacket]
    rw [writeBlocks_first_error char alwaysOversizeOracle
      ⟨MIN_BLOCK_LENGTH, mode, []⟩ (packetOf payload)
      (packetOf payload).length (JsError.domException JsErrorName.dataError)
      hchar hpack rfl]
    dsimp only
    simp [handleWriteError]

/-- Witness for C3 at a concrete payload and transport state. -/
theorem oversize_recovery_spec_witness :
    (send fullChar mtu20Oracle 1024 2
        ⟨64, WriteMode.withoutResponse, []⟩ (List.replicate 30 7)).2 =
      some (Except.ok ()) ∧
    (send fullChar mtu20Oracle 1024 2
        ⟨64, WriteMode.withoutResponse, []⟩ (List.replicate 30 7)).1.blockLength =
      MIN_BLOCK_LENGTH := by
  have h := oversize_recovery_spec fullChar WriteMode.withoutResponse
    (List.replicate 30 7) ⟨64, WriteMode.withoutResponse, []⟩ 1024
    (by decide) rfl (by decide) (by simp) (by simp) rfl
  exact ⟨h.1, h.2.1⟩

/-- C4 counterexample: on a characteristic that supports both write
    modes while every write throws NotSupportedError, both modes have
    been tried without success after the first two attempts, yet send
    does not propagate the error: after ten write attempts the loop is
    still alternating modes, and the transport state (blockLength and
    writeMode) has returned to its initial value, so the retry loop in
    writePacket never terminates. -/
theorem writePacket_mode_pingpong :
    (send fullChar notSupportedOracle 1024 10
        ⟨64, WriteMode.withResponse, []⟩ [1]).2 = none ∧
    ((send fullChar notSupportedOracle 1024 10
        ⟨64, WriteMode.withResponse, []⟩ [1]).1.calls.map
      (fun c => c.1)) =
      [WriteFn.withResponseFn, WriteFn.withoutResponseFn,
       WriteFn.withResponseFn, WriteFn.withoutResponseFn,
       WriteFn.withResponseFn, WriteFn.withoutResponseFn,
       WriteFn.withResponseFn, WriteFn.withoutResponseFn,
       WriteFn.withResponseFn, WriteFn.withoutResponseFn] ∧
    (send fullChar notSupportedOracle 1024 10
        ⟨64, WriteMode.withResponse, []⟩ [1]).1.writeMode =
      WriteMode.withResponse ∧
    (send fullChar notSupportedOracle 1024 10
        ⟨64, WriteMode.withResponse, []⟩ [1]).1.blockLength = 64 := by
  refine ⟨rfl, rfl, rfl, rfl⟩

/-- C4 amended: when a block write fails with NotSupportedError the
    framer switches writeMode to the other mode provided the
    characteristic supports it, and retries the whole message; when the
    other mode is unsupported, send propagates the error to the caller.
    The framer keeps no record of modes already tried, so termination is
    not guaranteed when both modes stay supported but keep failing. -/
theorem writemode_fallback_spec (char : GattCharacteristic) (payload : Bytes)
    (st : TransportState) (maxMsg : Nat)
    (hmode : st.writeMode = WriteMode.withResponse)
    (hcharA : char.hasWriteValueWithResponse = true)
    (hbl : 1 ≤ st.blockLength) (hmax : payload.length ≤ maxMsg)
    (hcalls : st.calls = []) :
    (supportsWriteWithoutResponse char = true →
      (send char nsOnWithResponseOracle maxMsg 2 st payload).2 =
        some (Except.ok ()) ∧
      (send char nsOnWithResponseOracle maxMsg 2 st payload).1.writeMode =
        WriteMode.withoutResponse ∧
      (send char nsOnWithResponseOracle maxMsg 2 st payload).1.calls =
        (WriteFn.withResponseFn, (packetOf payload).take st.blockLength,
            some (JsError.domException JsErrorName.notSupportedError)) ::
          ((chunksOf st.blockLength (packetOf payload)).map
            (fun blk => (WriteFn.withoutResponseFn, blk, none)))) ∧
    (supportsWriteWithoutResponse char = false →
      (send char nsOnWithResponseOracle maxMsg 2 st payload).2 =
        some (Except.error (JsError.domException JsErrorName.notSupportedError))) := by
  have hpack : packetOf payload ≠ [] := by simp [packetOf]
  have hsendeq : send char nsOnWithResponseOracle maxMsg 2 st payload =
      writePacket char nsOnWithResponseOracle 2 st (packetOf payload) := by
    rw [send, if_neg (show ¬(payload.length > maxMsg) by omega)]
  have hfail : nsOnWithResponseOracle st.calls.length (modeFn st.writeMode)
      ((packetOf payload).take st.blockLength) =
      some (JsError.domException JsErrorName.notSupportedError) := by
    rw [hmode]
    simp [nsOnWithResponseOracle, modeFn]
  have hchar1 : hasModeFn char st.writeMode = true := by
    rw [hmode]
    simpa [hasModeFn] using hcharA
  have hfirst : writePacket char nsOnWithResponseOracle 2 st (packetOf payload) =
      (let h := handleWriteError char
          (JsError.domException JsErrorName.notSupportedError)
          ⟨st.blockLength, st.writeMode,
            st.calls ++ [(modeFn st.writeMode,
              (packetOf payload).take st.blockLength,
              some (JsError.domException JsErrorName.notSupportedError))]⟩
        if h.1 then
          writePacket char nsOnWithResponseOracle 1 h.2 (packetOf payload)
        else (h.2, some (Except.error
          (JsError.domException JsErrorName.notSupportedError)))) := by
    have h2 : (2 : Nat) = 1 + 1 := rfl
    rw [h2, writePacket]
    rw [writeBlocks_first_error char nsOnWithResponseOracle st
      (packetOf payload) (packetOf payload).length
      (JsError.domException JsErrorName.notSupportedError)
      hchar1 hpack hfail]
  constructor
  · intro hsupp
    have hfn : char.hasWriteValueWithoutResponse = true :=
      supportsWithoutResponse_fn char hsupp
    have hfb : handleWriteError char
        (JsError.domException JsErrorName.notSupportedError)
        ⟨st.blockLength, st.writeMode,
          st.calls ++ [(modeFn st.writeMode,
            (packetOf payload).take st.blockLength,
            some (JsError.domException JsErrorName.notSupportedError))]⟩ =
        (true, ⟨st.blockLength, WriteMode.withoutResponse,
          st.calls ++ [(modeFn st.writeMode,
            (packetOf payload).take st.blockLength,
            some (JsError.domException JsErrorName.notSupportedError))]⟩) := by
      rw [handleWriteError, tryFallbackWriteMode]
      rw [if_pos (by exact ⟨hmode, hsupp⟩)]
    have hok : ∀ i blk, blk.length ≤ st.blockLength →
        nsOnWithResponseOracle i (modeFn WriteMode.withoutResponse) blk = none := by
      intro i blk _
      simp [nsOnWithResponseOracle, modeFn]
    have hwp := writePacket_ok char nsOnWithResponseOracle
      WriteMode.withoutResponse (by simpa [hasModeFn] using hfn)
      ⟨st.blockLength, WriteMode.withoutResponse,
        st.calls ++ [(modeFn st.writeMode,
          (packetOf payload).take st.blockLength,
          some (JsError.domException JsErrorName.notSupportedError))]⟩
      (packetOf payload) 0 rfl hbl hok
    norm_num at hwp
    rw [hsendeq, hfirst]
    dsimp only
    rw [hfb]
    dsimp only
    rw [hwp]
    rw [hmode, hcalls]
    simp [modeFn]
  · intro hsupp
    have hfb : handleWriteError char
        (JsError.domException JsErrorName.notSupportedError)
        ⟨st.blockLength, st.writeMode,
          st.calls ++ [(modeFn st.writeMode,
            (packetOf payload).take st.blockLength,
            some (JsError.domException JsErrorName.notSupportedError))]⟩ =
        (false, ⟨st.blockLength, st.writeMode,
          st.calls ++ [(modeFn st.writeMode,
            (packetOf payload).take st.blockLength,
            some (JsError.domException JsErrorName.notSupportedError))]⟩) := by
      rw [handleWriteError, tryFallbackWriteMode]
      rw [if_neg (by simp [hsupp])]
      rw [if_neg (by simp [hmode])]
    rw [hsendeq, hfirst]
    dsimp only
    rw [hfb]
    simp

/-- Witness for C4: the repository's own fallback scenario (with-response
    unsupported at runtime, without-response available). -/
theorem writemode_fallback_spec_witness :
    (supportsWriteWithoutResponse fullChar = true →
      (send fullChar nsOnWithResponseOracle 1024 2
          ⟨64, WriteMode.withResponse, []⟩ [1]).2 = some (Except.ok ()) ∧
      (send fullChar nsOnWithResponseOracle 1024 2
          ⟨64, WriteMode.withResponse, []⟩ [1]).1.writeMode =
        WriteMode.withoutResponse ∧
      (send fullChar nsOnWithResponseOracle 1024 2
          ⟨64, WriteMode.withResponse, []⟩ [1]).1.calls =
        (WriteFn.withResponseFn, (packetOf [1]).take 64,
            some (JsError.domException JsErrorName.notSupportedError)) ::
          ((chunksOf 64 (packetOf [1])).map
            (fun blk => (WriteFn.withoutResponseFn, blk, none)))) ∧
    (supportsWriteWithoutResponse fullChar = false →
      (send fullChar nsOnWithResponseOracle 1024 2
          ⟨64, WriteMode.withResponse, []⟩ [1]).2 =
        some (Except.error (JsError.domException JsErrorName.notSupportedError))) :=
  writemode_fallback_spec fullChar [1] ⟨64, WriteMode.withResponse, []⟩ 1024
    rfl rfl (by decide) (by decide) rfl

theorem or_byte (a b : Nat) (hb : b < 256) : (a <<< 8) ||| b = a * 256 + b := by
  rw [Nat.shiftLeft_eq]
  have h2 := (Nat.mul_add_lt_is_or (i := 8) hb a).symm
  rw [Nat.mul_comm (2 ^ 8) a] at h2
  omega

theorem header_reconstruct (L : Nat) (h : L < 2 ^ 16) :
    (((L >>> 8) &&& 255) <<< 8) ||| (L &&& 255) = L := by
  have h1 := Nat.and_pow_two_sub_one_eq_mod (L >>> 8) 8
  have h2 := Nat.and_pow_two_sub_one_eq_mod L 8
  norm_num at h1 h2
  rw [h1, h2, Nat.shiftRight_eq_div_pow] at *
  rw [or_byte _ _ (by omega)]
  norm_num
  omega

theorem flush_short (maxMsg : Nat) (l : Bytes) (h : l.length < 2) :
    flush maxMsg l = ([], l) := by
  match l with
  | [] => rw [flush]
  | [b] => rw [flush]
  | a :: b :: t =>
    exfalso
    simp at h
    omega

theorem flush_wait (maxMsg L b0 b1 : Nat) (rest : Bytes)
    (hlen : (b0 <<< 8) ||| b1 = L) (hmax : L ≤ maxMsg)
    (hwait : rest.length < L) :
    flush maxMsg (b0 :: b1 :: rest) = ([], b0 :: b1 :: rest) := by
  rw [flush]
  dsimp only
  rw [hlen]
  rw [if_neg (show ¬(L > maxMsg) by omega), if_pos hwait]

theorem flush_exact (maxMsg L b0 b1 : Nat) (payload : Bytes)
    (hlen : (b0 <<< 8) ||| b1 = L) (hmax : L ≤ maxMsg)
    (hexact : payload.length = L) :
    flush maxMsg (b0 :: b1 :: payload) = ([payload], []) := by
  rw [flush]
  dsimp only
  rw [hlen]
  rw [if_neg (show ¬(L > maxMsg) by omega),
    if_neg (show ¬(payload.length < L) by omega)]
  rw [List.take_of_length_le (by omega), List.drop_of_length_le (by omega)]
  rw [flush_short maxMsg [] (by simp)]

theorem flatten_ne_nil (bs : List Bytes) (hne : bs ≠ [])
    (hall : ∀ b ∈ bs, b ≠ []) : bs.flatten ≠ [] := by
  cases bs with
  | nil => simp at hne
  | cons b rest =>
    have hb := hall b (by simp)
    cases b with
    | nil => simp at hb
    | cons x xs => simp

theorem take_two_of_cons_cons (b0 b1 : Nat) (payload : Bytes) (k : Nat)
    (hk : 2 ≤ k) :
    (b0 :: b1 :: payload).take k = b0 :: b1 :: payload.take (k - 2) := by
  obtain ⟨m, rfl⟩ : ∃ m, k = m + 2 := ⟨k - 2, by omega⟩
  simp [List.take]

theorem process_stream (maxMsg rxTimeout b0 b1 : Nat) (payload : Bytes)
    (hlen : (b0 <<< 8) ||| b1 = payload.length)
    (hmax : payload.length ≤ maxMsg) :
    ∀ (bs : List Bytes) (ts : List Nat) (k tprev : Nat),
      bs ≠ [] → ts.length = bs.length → (∀ b ∈ bs, b ≠ []) →
      k < (b0 :: b1 :: payload).length →
      bs.flatten = (b0 :: b1 :: payload).drop k →
      (∀ t rest, ts = t :: rest → (k = 0 ∨ t - tprev ≤ rxTimeout)) →
      List.Chain' (fun a b => b - a ≤ rxTimeout) ts →
      (processNotifications maxMsg rxTimeout
        ⟨(b0 :: b1 :: payload).take k, tprev⟩ (ts.zip bs)).2 = [payload] := by
  intro bs
  induction bs with
  | nil => intro ts k tprev hne; simp at hne
  | cons b bs ih =>
    intro ts k tprev _ hts hall hk hflat hfirst hchain
    cases ts with
    | nil => simp at hts
    | cons t ts =>
      have hb : b ≠ [] := hall b (by simp)
      have hbuf0 : (if t - tprev > rxTimeout then []
          else (b0 :: b1 :: payload).take k) = (b0 :: b1 :: payload).take k := by
        rcases hfirst t ts rfl with hk0 | hgap
        · subst hk0; simp
        · rw [if_neg (by omega)]
      have hmerge : (b0 :: b1 :: payload).take k ++ b =
          (b0 :: b1 :: payload).take (k + b.length) := by
        have hsplit : (b0 :: b1 :: payload).drop k = b ++ bs.flatten := by
          rw [← hflat]; simp
        rw [List.take_add]
        congr 1
        rw [hsplit]
        exact (List.take_left b bs.flatten).symm
      simp only [List.zip_cons_cons, processNotifications, onNotification]
      rw [if_neg (by simpa using hb)]
      dsimp only
      rw [hbuf0, hmerge]
      cases hbs : bs with
      | nil =>
        subst hbs
        have hts0 : ts = [] := by simpa using hts
        subst hts0
        have hsplit : (b0 :: b1 :: payload).drop k = b := by
          rw [← hflat]; simp
        have hlen2 : (b0 :: b1 :: payload).length - k = b.length := by
          rw [← List.length_drop, hsplit]
        have hklt := hk
        simp only [List.length_cons] at hlen2 hklt
        rw [List.take_of_length_le (by simp only [List.length_cons]; omega)]
        rw [flush_exact maxMsg payload.length b0 b1 payload hlen hmax rfl]
        simp [processNotifications]
      | cons b2 bs2 =>
        have hbs_ne : bs ≠ [] := by rw [hbs]; simp
        have hflat_ne : bs.flatten ≠ [] :=
          flatten_ne_nil bs hbs_ne (fun x hx => hall x (List.mem_cons_of_mem b hx))
        have hsplit : (b0 :: b1 :: payload).drop k = b ++ bs.flatten := by
          rw [← hflat]; simp
        have hdrop : (b0 :: b1 :: payload).drop (k + b.length) = bs.flatten := by
          have h1 : (b0 :: b1 :: payload).drop (k + b.length) =
              ((b0 :: b1 :: payload).drop k).drop b.length := by
            rw [List.drop_drop, Nat.add_comm]
          rw [h1, hsplit, List.drop_left]
        have hk2 : k + b.length < (b0 :: b1 :: payload).length := by
          by_contra hcon
          have hnil : (b0 :: b1 :: payload).drop (k + b.length) = [] :=
            List.drop_eq_nil_of_le (by omega)
          rw [hdrop] at hnil
          exact hflat_ne hnil
        have hplen : (b0 :: b1 :: payload).length = payload.length + 2 := by simp
        have hflush : flush maxMsg ((b0 :: b1 :: payload).take (k + b.length)) =
            ([], (b0 :: b1 :: payload).take (k + b.length)) := by
          by_cases h2 : k + b.length < 2
          · exact flush_short maxMsg _ (by rw [List.length_take]; omega)
          · rw [take_two_of_cons_cons b0 b1 payload _ (by omega)]
            exact flush_wait maxMsg payload.length b0 b1 _ hlen hmax
              (by rw [List.length_take]; omega)
        rw [hflush]
        dsimp only
        have happ := ih ts (k + b.length) t hbs_ne (by simpa using hts)
          (fun x hx => hall x (List.mem_cons_of_mem b hx)) hk2 hdrop.symm
          (fun t2 rest2 heq => by
            right
            subst heq
            exact (List.chain'_cons.mp hchain).1)
          (List.Chain'.tail hchain)
        rw [hbs] at happ
        simpa [List.zip] using happ

/-- C1: for any payload of length 1 up to the maximum message size, send
    writes exactly the 2-byte big-endian length prefix followed by the
    payload, split into consecutive in-order blocks of at most
    blockLength bytes; delivering exactly those blocks, in order, with no
    inter-fragment gap above the inbound-silence threshold, makes the
    notification handler emit exactly one message equal to the
    payload. -/
theorem transport_frame_roundtrip
    (char : GattCharacteristic) (mode : WriteMode) (st : TransportState)
    (payload : Bytes) (maxMsg rxTimeout t0 : Nat) (ts : List Nat)
    (hmode : st.writeMode = mode) (hchar : hasModeFn char mode = true)
    (hcalls : st.calls = []) (hbl : 1 ≤ st.blockLength)
    (hlen1 : 1 ≤ payload.length) (hlen2 : payload.length ≤ maxMsg)
    (hmax : maxMsg < 2 ^ 16)
    (hts : ts.length = (chunksOf st.blockLength (packetOf payload)).length)
    (hgap : List.Chain' (fun a b => b - a ≤ rxTimeout) ts) :
    (send char allOkOracle maxMsg 2 st payload).2 = some (Except.ok ()) ∧
    (send char allOkOracle maxMsg 2 st payload).1.calls =
      (chunksOf st.blockLength (packetOf payload)).map
        (fun blk => (modeFn mode, blk, none)) ∧
    (chunksOf st.blockLength (packetOf payload)).flatten = packetOf payload ∧
    (∀ blk ∈ chunksOf st.blockLength (packetOf payload),
      blk.length ≤ st.blockLength ∧ blk ≠ []) ∧
    packetOf payload =
      payload.length / 256 :: payload.length % 256 :: payload ∧
    (processNotifications maxMsg rxTimeout ⟨[], t0⟩
        (ts.zip (chunksOf st.blockLength (packetOf payload)))).2 =
      [payload] := by
  have hL : payload.length < 2 ^ 16 := by omega
  have hbl0 : st.blockLength ≠ 0 := by omega
  have hb0 : payload.length >>> 8 &&& 255 = payload.length / 256 := by
    have h1 := Nat.and_pow_two_sub_one_eq_mod (payload.length >>> 8) 8
    norm_num at h1
    rw [h1, Nat.shiftRight_eq_div_pow]
    norm_num
    omega
  have hb1 : payload.length &&& 255 = payload.length % 256 := by
    have h1 := Nat.and_pow_two_sub_one_eq_mod payload.length 8
    norm_num at h1
    exact h1
  have hpkt : packetOf payload =
      payload.length / 256 :: payload.length % 256 :: payload := by
    rw [packetOf, hb0, hb1]
  have hhdr : ((payload.length >>> 8 &&& 255) <<< 8) |||
      (payload.length &&& 255) = payload.length :=
    header_reconstruct payload.length hL
  have hsendeq : send char allOkOracle maxMsg 2 st payload =
      writePacket char allOkOracle 2 st (packetOf payload) := by
    rw [send, if_neg (show ¬(payload.length > maxMsg) by omega)]
  have hok : ∀ i blk, blk.length ≤ st.blockLength →
      allOkOracle i (modeFn mode) blk = none := fun _ _ _ => rfl
  have hwp := writePacket_ok char allOkOracle mode hchar st (packetOf payload)
    1 hmode hbl hok
  norm_num at hwp
  have hflatten := chunksOf_flatten st.blockLength hbl0 (packetOf payload)
  have hmem := chunksOf_mem st.blockLength hbl0 (packetOf payload)
  have hpkne : packetOf payload ≠ [] := by rw [packetOf]; simp
  have hchne : chunksOf st.blockLength (packetOf payload) ≠ [] := by
    rw [chunksOf_cons st.blockLength (packetOf payload) hpkne hbl0]
    simp
  refine ⟨?_, ?_, hflatten, hmem, hpkt, ?_⟩
  · rw [hsendeq, hwp]
  · rw [hsendeq, hwp, hcalls]
    simp
  · have hps := process_stream maxMsg rxTimeout
      (payload.length >>> 8 &&& 255) (payload.length &&& 255) payload
      hhdr (by omega)
      (chunksOf st.blockLength (packetOf payload)) ts 0 t0
      hchne hts (fun b hb => (hmem b hb).2) (by simp)
      (by
        rw [List.drop_zero]
        have := hflatten
        rw [packetOf] at this
        exact this)
      (fun t rest _ => Or.inl rfl) hgap
    rw [List.take_zero] at hps
    exact hps

/-- Witness for C1 at a concrete payload, block length and fragment
    timing. -/
theorem transport_frame_roundtrip_witness :
    (send fullChar allOkOracle 1024 2
        ⟨2, WriteMode.withResponse, []⟩ [1, 2, 3]).2 = some (Except.ok ()) ∧
    (send fullChar allOkOracle 1024 2
        ⟨2, WriteMode.withResponse, []⟩ [1, 2, 3]).1.calls =
      (chunksOf 2 (packetOf [1, 2, 3])).map
        (fun blk => (modeFn WriteMode.withResponse, blk, none)) ∧
    (chunksOf 2 (packetOf [1, 2, 3])).flatten = packetOf [1, 2, 3] ∧
    (∀ blk ∈ chunksOf 2 (packetOf [1, 2, 3]), blk.length ≤ 2 ∧ blk ≠ []) ∧
    packetOf [1, 2, 3] = 3 / 256 :: 3 % 256 :: [1, 2, 3] ∧
    (processNotifications 1024 100 ⟨[], 0⟩
        (([5, 10, 15] : List Nat).zip (chunksOf 2 (packetOf [1, 2, 3])))).2 =
      [[1, 2, 3]] := by
  have h := transport_frame_roundtrip fullChar WriteMode.withResponse
    ⟨2, WriteMode.withResponse, []⟩ [1, 2, 3] 1024 100 0 [5, 10, 15]
    rfl rfl rfl (by decide) (by decide) (by decide) (by decide)
    (by
      simp [packetOf]
      rw [chunksOf_cons _ _ (by decide) (by decide),
        chunksOf_cons _ _ (by decide) (by decide),
        chunksOf_cons _ _ (by decide) (by decide)]
      simp [chunksOf_nil])
    (by simp)
  exact h

theorem or_pow (k a b : Nat) (hb : b < 2 ^ k) : (a <<< k) ||| b = a * 2 ^ k + b := by
  rw [Nat.shiftLeft_eq]
  have h2 := (Nat.mul_add_lt_is_or hb a).symm
  rw [Nat.mul_comm (2 ^ k) a] at h2
  omega

theorem getD_append_length (pre : Bytes) (x : Nat) (rest : Bytes) (d : Nat) :
    (pre ++ x :: rest).getD pre.length d = x := by
  induction pre with
  | nil => rfl
  | cons a t ih => simpa [List.getD] using ih

theorem getD_mem_lt (bytes : Bytes) (offset : Nat) (h : offset < bytes.length)
    (hbytes : ∀ b ∈ bytes, b < 256) : bytes.getD offset 0 < 256 := by
  have hmem : bytes.getD offset 0 ∈ bytes := by
    rw [List.getD_eq_getElem bytes 0 h]
    exact List.getElem_mem h
  exact hbytes _ hmem

theorem and80_eq_zero_iff : ∀ f : Fin 256, ((f : Nat) &&& 0x80 = 0) ↔ (f : Nat) < 0x80 := by
  decide

theorem and7f_eq (f : Nat) : f &&& 0x7f = f % 128 := by
  have h := Nat.and_pow_two_sub_one_eq_mod f 7
  norm_num at h
  exact h

theorem beVal_foldl_ge (bs : Bytes) :
    ∀ acc : Nat, acc ≤ bs.foldl (fun a b => a * 256 + b) acc := by
  induction bs with
  | nil => intro acc; simp
  | cons b t ih =>
    intro acc
    simp only [List.foldl]
    exact le_trans (by omega) (ih (acc * 256 + b))

theorem jsLenFold_eq (bs : Bytes) :
    ∀ acc : Nat, (∀ b ∈ bs, b < 256) →
      bs.foldl (fun a b => a * 256 + b) acc < 2 ^ 31 →
      jsLenFold (acc : Int) bs =
        ((bs.foldl (fun a b => a * 256 + b) acc : Nat) : Int) := by
  induction bs with
  | nil => intro acc _ _; rfl
  | cons b t ih =>
    intro acc hb hlt
    simp only [List.foldl] at hlt
    have hge := beVal_foldl_ge t (acc * 256 + b)
    have hstep : jsLenStep (acc : Int) b = ((acc * 256 + b : Nat) : Int) := by
      unfold jsLenStep
      rw [show ((acc : Int) * 256) = ((acc * 256 : Nat) : Int) by push_cast; ring]
      rw [toInt32_eq_self (by push_cast; omega) (by push_cast; omega)]
      push_cast
      ring
    have := ih (acc * 256 + b) (fun x hx => hb x (by simp [hx])) hlt
    simp only [jsLenFold, List.foldl] at this ⊢
    rw [hstep]
    exact this

theorem beBytes_lt (n : Nat) : ∀ b ∈ beBytes n, b < 256 := by
  induction n using Nat.strong_induction_on with
  | _ n ih =>
    rw [beBytes]
    split
    · simp
    · rename_i hn
      intro b hb
      rcases List.mem_append.mp hb with h1 | h2
      · exact ih (n >>> 8) (by
          rw [Nat.shiftRight_eq_div_pow]
          exact Nat.div_lt_self (by omega) (by norm_num)) b h1
      · have h3 : b = n &&& 0xff := by simpa using h2
        have h4 := Nat.and_pow_two_sub_one_eq_mod n 8
        norm_num at h4
        subst h3
        rw [show (0xff : Nat) = 255 from rfl, h4]
        omega

theorem beVal_beBytes (n : Nat) : beVal (beBytes n) = n := by
  induction n using Nat.strong_induction_on with
  | _ n ih =>
    rw [beBytes]
    split
    · rename_i hn; simp [beVal, hn]
    · rename_i hn
      have hih := ih (n >>> 8) (by
        rw [Nat.shiftRight_eq_div_pow]
        exact Nat.div_lt_self (by omega) (by norm_num))
      unfold beVal at hih ⊢
      rw [List.foldl_append]
      rw [hih]
      simp only [List.foldl]
      have h4 := Nat.and_pow_two_sub_one_eq_mod n 8
      norm_num at h4
      rw [Nat.shiftRight_eq_div_pow, show (0xff : Nat) = 255 from rfl, h4]
      norm_num
      omega

theorem beBytes_length_le : ∀ (k n : Nat), n < 2 ^ (8 * k) → (beBytes n).length ≤ k := by
  intro k
  induction k with
  | zero =>
    intro n h
    norm_num at h
    subst h
    rw [beBytes]
    simp
  | succ k ih =>
    intro n h
    rw [beBytes]
    split
    · simp
    · rename_i hn
      have hdiv : n >>> 8 < 2 ^ (8 * k) := by
        rw [Nat.shiftRight_eq_div_pow]
        have hpow : 2 ^ (8 * (k + 1)) = 2 ^ (8 * k) * 2 ^ 8 := by
          rw [← pow_add]
          ring_nf
        rw [Nat.div_lt_iff_lt_mul (by norm_num)]
        rw [hpow] at h
        omega
      have := ih (n >>> 8) hdiv
      simp [List.length_append]
      omega

theorem beBytes_ne_nil (n : Nat) (hn : n ≠ 0) : beBytes n ≠ [] := by
  rw [beBytes]
  simp [hn]

theorem or80_and80 : ∀ k : Fin 128, ((0x80 ||| (k : Nat)) &&& 0x80) ≠ 0 := by decide

theorem or80_and7f : ∀ k : Fin 128, ((0x80 ||| (k : Nat)) &&& 0x7f) = (k : Nat) := by
  decide

/-- C8 counterexample: on the six-byte input 30 84 FF FF FF FF the
    declared long-form length is 4294967295, whose content extends past
    the end of the input, so the claim requires a thrown parse error;
    the decoder's 32-bit accumulator instead wraps to -1, the
    out-of-range check passes, and decoding succeeds with a negative
    length and a content end before the content start. -/
theorem decodeAsn1Element_int32_overflow :
    decodeAsn1Element [0x30, 0x84, 0xFF, 0xFF, 0xFF, 0xFF] 0 =
      Except.ok ⟨0x30, -1, 6, 6, 5, 5⟩ ∧
    beVal [0xFF, 0xFF, 0xFF, 0xFF] = 4294967295 ∧
    (6 : Nat) + 4294967295 > 6 := by
  refine ⟨rfl, by decide, by decide⟩

/-- C8 amended: the decoder parses a short-form length byte as the value
    itself, and a long-form length as the big-endian integer over the
    indicated count of following bytes provided that integer is below
    2^31; it throws, before any slicing, on a missing or truncated
    length, on the indefinite form, and on declared content that runs
    past the end of the input. -/
theorem decodeAsn1_spec (bytes : Bytes) (offset : Nat)
    (hbytes : ∀ b ∈ bytes, b < 256) :
    (offset ≥ bytes.length →
      decodeAsn1Length bytes offset = Except.error Asn1Error.missingLength) ∧
    (∀ first, offset < bytes.length → bytes.getD offset 0 = first →
      first < 0x80 →
      decodeAsn1Length bytes offset = Except.ok ⟨(first : Int), 1⟩) ∧
    (offset < bytes.length → bytes.getD offset 0 = 0x80 →
      decodeAsn1Length bytes offset = Except.error Asn1Error.indefiniteLength) ∧
    (∀ first, offset < bytes.length → bytes.getD offset 0 = first →
      0x80 < first → offset + 1 + (first - 0x80) > bytes.length →
      decodeAsn1Length bytes offset = Except.error Asn1Error.truncatedLength) ∧
    (∀ first, offset < bytes.length → bytes.getD offset 0 = first →
      0x80 < first → offset + 1 + (first - 0x80) ≤ bytes.length →
      beVal ((bytes.drop (offset + 1)).take (first - 0x80)) < 2 ^ 31 →
      decodeAsn1Length bytes offset =
        Except.ok ⟨(beVal ((bytes.drop (offset + 1)).take (first - 0x80)) : Int),
          1 + (first - 0x80)⟩) ∧
    (offset ≥ bytes.length →
      decodeAsn1Element bytes offset = Except.error Asn1Error.offsetOutOfRange) ∧
    (∀ (v lb : Nat), offset < bytes.length →
      decodeAsn1Length bytes (offset + 1) = Except.ok ⟨(v : Int), lb⟩ →
      offset + 1 + lb + v ≤ bytes.length →
      decodeAsn1Element bytes offset =
        Except.ok ⟨bytes.getD offset 0, (v : Int), 1 + lb, offset + 1 + lb,
          ((offset + 1 + lb + v : Nat) : Int), ((1 + lb + v : Nat) : Int)⟩) ∧
    (∀ (v lb : Nat), offset < bytes.length →
      decodeAsn1Length bytes (offset + 1) = Except.ok ⟨(v : Int), lb⟩ →
      offset + 1 + lb + v > bytes.length →
      decodeAsn1Element bytes offset = Except.error Asn1Error.lengthOutOfRange) := by
  have hfirstlt : offset < bytes.length → bytes.getD offset 0 < 256 :=
    fun h => getD_mem_lt bytes offset h hbytes
  refine ⟨?_, ?_, ?_, ?_, ?_, ?_, ?_, ?_⟩
  · intro h
    rw [decodeAsn1Length, if_pos h]
  · intro first hoff hgetD hshort
    rw [decodeAsn1Length, if_neg (by omega)]
    dsimp only
    rw [hgetD]
    rw [if_pos ((and80_eq_zero_iff ⟨first, by
      have := hfirstlt hoff; rw [hgetD] at this; omega⟩).mpr hshort)]
  · intro hoff hgetD
    rw [decodeAsn1Length, if_neg (by omega)]
    dsimp only
    rw [hgetD]
    rw [if_neg (by decide)]
    rw [if_pos (by decide)]
  · intro first hoff hgetD hlong htrunc
    have h256 : first < 256 := by have := hfirstlt hoff; rw [hgetD] at this; exact this
    have hno0 : ¬(first &&& 0x80 = 0) := by
      intro h
      have h2 : first < 0x80 := (and80_eq_zero_iff ⟨first, h256⟩).mp h
      omega
    have hand : first &&& 0x7f = first - 0x80 := by
      rw [and7f_eq]
      omega
    rw [decodeAsn1Length, if_neg (by omega)]
    dsimp only
    rw [hgetD, if_neg hno0]
    rw [hand]
    rw [if_neg (show ¬(first - 0x80 = 0) by omega)]
    rw [if_pos (show offset + 1 + (first - 0x80) > bytes.length by omega)]
  · intro first hoff hgetD hlong hfit hval
    have h256 : first < 256 := by have := hfirstlt hoff; rw [hgetD] at this; exact this
    have hno0 : ¬(first &&& 0x80 = 0) := by
      intro h
      have h2 : first < 0x80 := (and80_eq_zero_iff ⟨first, h256⟩).mp h
      omega
    have hand : first &&& 0x7f = first - 0x80 := by
      rw [and7f_eq]
      omega
    rw [decodeAsn1Length, if_neg (by omega)]
    dsimp only
    rw [hgetD, if_neg hno0]
    rw [hand]
    rw [if_neg (show ¬(first - 0x80 = 0) by omega)]
    rw [if_neg (show ¬(offset + 1 + (first - 0x80) > bytes.length) by omega)]
    have hsub : ∀ b ∈ (bytes.drop (offset + 1)).take (first - 0x80), b < 256 :=
      fun b hb => hbytes b (List.mem_of_mem_drop (List.mem_of_mem_take hb))
    have hfold := jsLenFold_eq ((bytes.drop (offset + 1)).take (first - 0x80)) 0
      hsub (by unfold beVal at hval; exact hval)
    norm_num at hfold
    unfold beVal
    rw [hfold]
  · intro h
    rw [decodeAsn1Element, if_pos h]
  · intro v lb hoff hlen hfit
    rw [decodeAsn1Element, if_neg (by omega)]
    dsimp only
    rw [hlen]
    dsimp only
    rw [if_neg (by push_cast; omega)]
    simp only [Except.ok.injEq, Asn1Element.mk.injEq, true_and]
    refine ⟨by omega, by push_cast; omega, by push_cast; omega⟩
  · intro v lb hoff hlen hfit
    rw [decodeAsn1Element, if_neg (by omega)]
    dsimp only
    rw [hlen]
    dsimp only
    rw [if_pos (by push_cast; omega)]

/-- Witness for C8: a long-form length 81 05, its enclosing element, the
    indefinite form 80, and a truncated length 83 01, at concrete
    inputs. -/
theorem decodeAsn1_spec_witness :
    decodeAsn1Length [0x30, 0x81, 0x05, 1, 2, 3, 4, 5] 1 =
      Except.ok ⟨(5 : Int), 2⟩ ∧
    decodeAsn1Element [0x30, 0x81, 0x05, 1, 2, 3, 4, 5] 0 =
      Except.ok ⟨0x30, (5 : Int), 3, 3, 8, 8⟩ ∧
    decodeAsn1Length [0x30, 0x80] 1 = Except.error Asn1Error.indefiniteLength ∧
    decodeAsn1Length [0x30, 0x83, 0x01] 1 =
      Except.error Asn1Error.truncatedLength := by
  have h := decodeAsn1_spec [0x30, 0x81, 0x05, 1, 2, 3, 4, 5] 1 (by decide)
  have hlen := h.2.2.2.2.1 0x81 (by decide) rfl (by decide) (by decide)
    (by decide)
  have h0 := decodeAsn1_spec [0x30, 0x81, 0x05, 1, 2, 3, 4, 5] 0 (by decide)
  have helem := h0.2.2.2.2.2.2.1 5 2 (by decide) hlen (by decide)
  have h2 := decodeAsn1_spec [0x30, 0x80] 1 (by decide)
  have h3 := decodeAsn1_spec [0x30, 0x83, 0x01] 1 (by decide)
  exact ⟨hlen, helem, h2.2.2.1 (by decide) rfl,
    h3.2.2.2.1 0x83 (by decide) rfl (by decide) (by decide)⟩

theorem encodeAsn1Length_length_le (L : Nat) (hL : L < 2 ^ 31) :
    (encodeAsn1Length L).length ≤ 5 := by
  rw [encodeAsn1Length]
  split
  · simp
  · have hk := beBytes_length_le 4 L (by norm_num; omega)
    simp
    omega

theorem decodeAsn1Length_encode (pre rest : Bytes) (L : Nat) (hL : L < 2 ^ 31) :
    decodeAsn1Length (pre ++ encodeAsn1Length L ++ rest) pre.length =
      Except.ok ⟨(L : Int), (encodeAsn1Length L).length⟩ := by
  by_cases hshort : L < 0x80
  · rw [show encodeAsn1Length L = [L] by rw [encodeAsn1Length, if_pos hshort]]
    have hget : (pre ++ [L] ++ rest).getD pre.length 0 = L := by
      rw [List.append_assoc]
      exact getD_append_length pre L rest 0
    have hlt : pre.length < (pre ++ [L] ++ rest).length := by
      simp
    rw [decodeAsn1Length, if_neg (by omega)]
    dsimp only
    rw [hget, if_pos ((and80_eq_zero_iff ⟨L, by omega⟩).mpr hshort)]
    simp
  · have hk4 := beBytes_length_le 4 L (by norm_num; omega)
    have hk1 : beBytes L ≠ [] := beBytes_ne_nil L (by omega)
    have hk1len : 1 ≤ (beBytes L).length := by
      cases hbb : beBytes L with
      | nil => exact absurd hbb hk1
      | cons a t => simp
    rw [show encodeAsn1Length L = (0x80 ||| (beBytes L).length) :: beBytes L by
      rw [encodeAsn1Length, if_neg hshort]]
    have hassoc : pre ++ ((0x80 ||| (beBytes L).length) :: beBytes L) ++ rest =
        pre ++ (0x80 ||| (beBytes L).length) :: (beBytes L ++ rest) := by
      simp
    rw [hassoc]
    have hget : (pre ++ (0x80 ||| (beBytes L).length) ::
        (beBytes L ++ rest)).getD pre.length 0 = 0x80 ||| (beBytes L).length :=
      getD_append_length pre _ _ 0
    have hlt : pre.length <
        (pre ++ (0x80 ||| (beBytes L).length) :: (beBytes L ++ rest)).length := by
      simp
    have hfin : (beBytes L).length < 128 := by omega
    rw [decodeAsn1Length, if_neg (by omega)]
    dsimp only
    rw [hget]
    rw [if_neg (or80_and80 ⟨(beBytes L).length, hfin⟩)]
    rw [or80_and7f ⟨(beBytes L).length, hfin⟩]
    rw [if_neg (show ¬((beBytes L).length = 0) by omega)]
    have hdrop : (pre ++ (0x80 ||| (beBytes L).length) ::
        (beBytes L ++ rest)).drop (pre.length + 1) = beBytes L ++ rest := by
      rw [show pre ++ (0x80 ||| (beBytes L).length) :: (beBytes L ++ rest) =
          (pre ++ [0x80 ||| (beBytes L).length]) ++ (beBytes L ++ rest) by simp]
      rw [show pre.length + 1 = (pre ++ [0x80 ||| (beBytes L).length]).length by
        simp]
      exact List.drop_left _ _
    rw [if_neg (by
      simp only [List.length_append, List.length_cons]
      omega)]
    rw [hdrop, List.take_left]
    have hfold := jsLenFold_eq (beBytes L) 0 (beBytes_lt L)
      (by
        have := beVal_beBytes L
        unfold beVal at this
        omega)
    norm_num at hfold
    rw [hfold]
    have hval : (beBytes L).foldl (fun a b => a * 256 + b) 0 = L := by
      have := beVal_beBytes L
      unfold beVal at this
      exact this
    rw [hval]
    simp
    omega

theorem decodeAsn1Element_encode (pre rest : Bytes) (tag : Nat) (content : Bytes)
    (hL : content.length < 2 ^ 31) :
    decodeAsn1Element (pre ++ encodeAsn1 tag content ++ rest) pre.length =
      Except.ok ⟨tag, (content.length : Int),
        1 + (encodeAsn1Length content.length).length,
        pre.length + (1 + (encodeAsn1Length content.length).length),
        ((pre.length + (1 + (encodeAsn1Length content.length).length) : Nat) : Int)
          + (content.length : Int),
        (((1 + (encodeAsn1Length content.length).length : Nat)) : Int)
          + (content.length : Int)⟩ := by
  have hshape : pre ++ encodeAsn1 tag content ++ rest =
      pre ++ tag :: (encodeAsn1Length content.length ++ (content ++ rest)) := by
    rw [encodeAsn1]
    simp
  rw [hshape]
  have hget : (pre ++ tag :: (encodeAsn1Length content.length ++
      (content ++ rest))).getD pre.length 0 = tag :=
    getD_append_length pre _ _ 0
  have hlen : decodeAsn1Length (pre ++ tag :: (encodeAsn1Length content.length ++
      (content ++ rest))) (pre.length + 1) =
      Except.ok ⟨(content.length : Int), (encodeAsn1Length content.length).length⟩ := by
    have hassoc : pre ++ tag :: (encodeAsn1Length content.length ++
        (content ++ rest)) =
        (pre ++ [tag]) ++ encodeAsn1Length content.length ++ (content ++ rest) := by
      simp
    rw [hassoc]
    rw [show pre.length + 1 = (pre ++ [tag]).length by simp]
    exact decodeAsn1Length_encode (pre ++ [tag]) (content ++ rest)
      content.length hL
  rw [decodeAsn1Element, if_neg (by simp)]
  dsimp only
  rw [hget, hlen]
  dsimp only
  rw [if_neg (by
    simp only [List.length_append, List.length_cons]
    push_cast
    omega)]

theorem decodeAsn1Element_encode2 (bytes pre rest : Bytes) (tag : Nat)
    (content : Bytes) (off hl ce : Nat)
    (hbytes : bytes = pre ++ encodeAsn1 tag content ++ rest)
    (hoff : off = pre.length)
    (hhl : hl = 1 + (encodeAsn1Length content.length).length)
    (hce : ce = pre.length + 1 + (encodeAsn1Length content.length).length +
      content.length)
    (hL : content.length < 2 ^ 31) :
    decodeAsn1Element bytes off =
      Except.ok ⟨tag, (content.length : Int), hl, off + hl, (ce : Int),
        ((hl + content.length : Nat) : Int)⟩ := by
  subst hbytes hoff
  have h := decodeAsn1Element_encode pre rest tag content hL
  rw [h]
  simp only [Except.ok.injEq, Asn1Element.mk.injEq, true_and]
  refine ⟨hhl.symm, by omega, by push_cast; omega, by push_cast; omega⟩

theorem pkcs8Body_eq (s : Bytes) :
    pkcs8Body s = pkcs8Version ++ (pkcs8Algorithm ++ encodeAsn1 0x04 s) := by
  simp [pkcs8Body, concat]

theorem pkcs8Body_length (s : Bytes) :
    (pkcs8Body s).length = 25 + (encodeAsn1Length s.length).length + s.length := by
  rw [pkcs8Body_eq]
  have hV : pkcs8Version.length = 3 := rfl
  have hA : pkcs8Algorithm.length = 21 := rfl
  have hP : (encodeAsn1 0x04 s).length =
      1 + (encodeAsn1Length s.length).length + s.length := by
    rw [encodeAsn1]
    simp
    omega
  simp only [List.length_append, hV, hA, hP]
  omega

theorem pkcs8_roundtrip (s : Bytes) (hs : s.length < 2 ^ 31 - 64) :
    pkcs8ToEcPrivateKey (ecPrivateKeyToPkcs8 s) = Except.ok s := by
  have hsl : s.length < 2 ^ 31 := by omega
  have helen : (encodeAsn1Length s.length).length ≤ 5 :=
    encodeAsn1Length_length_le s.length hsl
  have hClen := pkcs8Body_length s
  have hn0 : (encodeAsn1Length (pkcs8Body s).length).length ≤ 5 :=
    encodeAsn1Length_length_le _ (by rw [hClen]; omega)
  -- the four element decodes
  have hroot := decodeAsn1Element_encode2 (ecPrivateKeyToPkcs8 s) [] [] 0x30
    (pkcs8Body s) 0 (1 + (encodeAsn1Length (pkcs8Body s).length).length)
    (1 + (encodeAsn1Length (pkcs8Body s).length).length + (pkcs8Body s).length)
    (by rw [ecPrivateKeyToPkcs8]; simp) rfl rfl (by simp) (by rw [hClen]; omega)
  have hshape2 : ecPrivateKeyToPkcs8 s =
      (0x30 :: encodeAsn1Length (pkcs8Body s).length) ++ pkcs8Version ++
        (pkcs8Algorithm ++ encodeAsn1 0x04 s) := by
    rw [ecPrivateKeyToPkcs8, encodeAsn1, pkcs8Body_eq]
    simp
  have hver := decodeAsn1Element_encode2 (ecPrivateKeyToPkcs8 s)
    (0x30 :: encodeAsn1Length (pkcs8Body s).length)
    (pkcs8Algorithm ++ encodeAsn1 0x04 s) 0x02 [0x00]
    (0 + (1 + (encodeAsn1Length (pkcs8Body s).length).length)) 2
    ((encodeAsn1Length (pkcs8Body s).length).length + 4)
    (by rw [hshape2, pkcs8Version])
    (by simp; omega)
    (by norm_num [encodeAsn1Length])
    (by norm_num [encodeAsn1Length])
    (by norm_num)
  have hshape3 : ecPrivateKeyToPkcs8 s =
      ((0x30 :: encodeAsn1Length (pkcs8Body s).length) ++ pkcs8Version) ++
        pkcs8Algorithm ++ encodeAsn1 0x04 s := by
    rw [hshape2]
    simp
  have halg := decodeAsn1Element_encode2 (ecPrivateKeyToPkcs8 s)
    ((0x30 :: encodeAsn1Length (pkcs8Body s).length) ++ pkcs8Version)
    (encodeAsn1 0x04 s) 0x30
    (concat [encodeAsn1 0x06 OID_EC_PUBLIC_KEY, encodeAsn1 0x06 OID_PRIME256V1])
    ((encodeAsn1Length (pkcs8Body s).length).length + 4) 2
    ((encodeAsn1Length (pkcs8Body s).length).length + 25)
    (by rw [hshape3, pkcs8Algorithm])
    (by simp [pkcs8Version, encodeAsn1, encodeAsn1Length])
    (by norm_num [concat, encodeAsn1, encodeAsn1Length, OID_EC_PUBLIC_KEY,
      OID_PRIME256V1])
    (by simp [pkcs8Version, concat, encodeAsn1, encodeAsn1Length,
      OID_EC_PUBLIC_KEY, OID_PRIME256V1])
    (by norm_num [concat, encodeAsn1, encodeAsn1Length, OID_EC_PUBLIC_KEY,
      OID_PRIME256V1])
  have hshape4 : ecPrivateKeyToPkcs8 s =
      (((0x30 :: encodeAsn1Length (pkcs8Body s).length) ++ pkcs8Version) ++
        pkcs8Algorithm) ++ encodeAsn1 0x04 s ++ [] := by
    rw [hshape3]
    simp
  have hpriv := decodeAsn1Element_encode2 (ecPrivateKeyToPkcs8 s)
    (((0x30 :: encodeAsn1Length (pkcs8Body s).length) ++ pkcs8Version) ++
      pkcs8Algorithm) [] 0x04 s
    ((encodeAsn1Length (pkcs8Body s).length).length + 25)
    (1 + (encodeAsn1Length s.length).length)
    ((encodeAsn1Length (pkcs8Body s).length).length + 25 + 1 +
      (encodeAsn1Length s.length).length + s.length)
    hshape4
    (by simp [pkcs8Version, pkcs8Algorithm, concat, encodeAsn1, encodeAsn1Length,
      OID_EC_PUBLIC_KEY, OID_PRIME256V1])
    rfl
    (by simp [pkcs8Version, pkcs8Algorithm, concat, encodeAsn1, encodeAsn1Length,
      OID_EC_PUBLIC_KEY, OID_PRIME256V1])
    hsl
  -- assemble
  rw [pkcs8ToEcPrivateKey, hroot]
  dsimp only
  rw [if_neg (by norm_num)]
  rw [show (0 : Nat) + (1 + (encodeAsn1Length (pkcs8Body s).length).length) =
    0 + (1 + (encodeAsn1Length (pkcs8Body s).length).length) from rfl, hver]
  dsimp only
  rw [if_neg (by norm_num)]
  rw [show (((((encodeAsn1Length (pkcs8Body s).length).length + 4 : Nat)) :
      Int)).toNat = (encodeAsn1Length (pkcs8Body s).length).length + 4 from
    Int.toNat_natCast _]
  rw [halg]
  dsimp only
  rw [if_neg (by norm_num)]
  rw [show (((((encodeAsn1Length (pkcs8Body s).length).length + 25 : Nat)) :
      Int)).toNat = (encodeAsn1Length (pkcs8Body s).length).length + 25 from
    Int.toNat_natCast _]
  rw [hpriv]
  dsimp only
  rw [if_neg (by norm_num)]
  -- the final slice
  have hlen : (ecPrivateKeyToPkcs8 s).length =
      (encodeAsn1Length (pkcs8Body s).length).length + 25 + 1 +
        (encodeAsn1Length s.length).length + s.length := by
    rw [ecPrivateKeyToPkcs8, encodeAsn1]
    simp [hClen]
    omega
  have hdropS : (ecPrivateKeyToPkcs8 s).drop
      ((encodeAsn1Length (pkcs8Body s).length).length + 25 +
        (1 + (encodeAsn1Length s.length).length)) = s := by
    have hshape5 : ecPrivateKeyToPkcs8 s =
        ((((0x30 :: encodeAsn1Length (pkcs8Body s).length) ++ pkcs8Version) ++
          pkcs8Algorithm) ++ (0x04 :: encodeAsn1Length s.length)) ++ s := by
      rw [hshape4, encodeAsn1]
      simp
    rw [hshape5]
    rw [show (encodeAsn1Length (pkcs8Body s).length).length + 25 +
        (1 + (encodeAsn1Length s.length).length) =
        ((((0x30 :: encodeAsn1Length (pkcs8Body s).length) ++ pkcs8Version) ++
          pkcs8Algorithm) ++ (0x04 :: encodeAsn1Length s.length)).length by
      simp [pkcs8Version, pkcs8Algorithm, concat, encodeAsn1, encodeAsn1Length,
        OID_EC_PUBLIC_KEY, OID_PRIME256V1]
      omega]
    exact List.drop_left _ _
  rw [jsSlice]
  rw [if_neg (by push_cast; omega)]
  have hmin : min ((((encodeAsn1Length (pkcs8Body s).length).length + 25 + 1 +
      (encodeAsn1Length s.length).length + s.length : Nat)) : Int)
      (((ecPrivateKeyToPkcs8 s).length : Nat) : Int) =
      ((((encodeAsn1Length (pkcs8Body s).length).length + 25 + 1 +
      (encodeAsn1Length s.length).length + s.length : Nat)) : Int) := by
    rw [hlen]
    exact min_self _
  rw [hmin, Int.toNat_natCast]
  rw [List.take_of_length_le hlen.le]
  exact congrArg Except.ok hdropS

theorem and3_eq (x : Nat) : x &&& 3 = x % 4 := by
  have h := Nat.and_pow_two_sub_one_eq_mod x 2
  norm_num at h
  exact h

theorem and15_eq (x : Nat) : x &&& 15 = x % 16 := by
  have h := Nat.and_pow_two_sub_one_eq_mod x 4
  norm_num at h
  exact h

theorem and63_eq (x : Nat) : x &&& 63 = x % 64 := by
  have h := Nat.and_pow_two_sub_one_eq_mod x 6
  norm_num at h
  exact h

theorem b64i1_lt (x : Nat) (hx : x < 256) : x >>> 2 < 64 := by
  rw [Nat.shiftRight_eq_div_pow]
  omega

theorem b64i2_eq (x y : Nat) (hy : y < 256) :
    ((x &&& 3) <<< 4) ||| (y >>> 4) = (x % 4) * 16 + y / 16 := by
  rw [and3_eq]
  rw [or_pow 4 (x % 4) (y >>> 4) (by rw [Nat.shiftRight_eq_div_pow]; omega)]
  rw [Nat.shiftRight_eq_div_pow]
  norm_num

theorem b64i2_lt (x y : Nat) (hx : x < 256) (hy : y < 256) :
    ((x &&& 3) <<< 4) ||| (y >>> 4) < 64 := by
  rw [b64i2_eq x y hy]
  omega

theorem b64i3_eq (y z : Nat) (hz : z < 256) :
    ((y &&& 15) <<< 2) ||| (z >>> 6) = (y % 16) * 4 + z / 64 := by
  rw [and15_eq]
  rw [or_pow 2 (y % 16) (z >>> 6) (by rw [Nat.shiftRight_eq_div_pow]; omega)]
  rw [Nat.shiftRight_eq_div_pow]
  norm_num

theorem b64i3_lt (y z : Nat) (hy : y < 256) (hz : z < 256) :
    ((y &&& 15) <<< 2) ||| (z >>> 6) < 64 := by
  rw [b64i3_eq y z hz]
  omega

theorem b64_byte1 (x b : Nat) (hx : x < 256) (hb : b = (x % 4) * 16 + b % 16)
    (hblt : b < 64) :
    ((x >>> 2) <<< 2) ||| (b >>> 4) = x := by
  rw [or_pow 2 (x >>> 2) (b >>> 4) (by
    rw [Nat.shiftRight_eq_div_pow]
    omega)]
  rw [Nat.shiftRight_eq_div_pow, Nat.shiftRight_eq_div_pow]
  norm_num
  omega

theorem b64_byte2 (y b2 b3 : Nat) (hy : y < 256)
    (hb2 : b2 % 16 = y / 16) (hb3 : b3 / 4 = y % 16) (hb3lt : b3 < 64) :
    ((b2 &&& 15) <<< 4) ||| (b3 >>> 2) = y := by
  rw [and15_eq]
  rw [or_pow 4 (b2 % 16) (b3 >>> 2) (by
    rw [Nat.shiftRight_eq_div_pow]
    omega)]
  rw [Nat.shiftRight_eq_div_pow]
  norm_num
  omega

theorem b64_byte3 (z b3 : Nat) (hz : z < 256) (hb3 : b3 % 4 = z / 64) :
    ((b3 &&& 3) <<< 6) ||| (z &&& 63) = z := by
  rw [and3_eq, and63_eq]
  rw [or_pow 6 (b3 % 4) (z % 64) (by omega)]
  omega

theorem b64Index_b64Char : ∀ i : Fin 64, b64Index (b64Char (i : Nat)) = some (i : Nat) := by
  decide

theorem b64Char_ne_pad : ∀ i : Fin 64, b64Char (i : Nat) ≠ '=' := by decide

theorem atob_btoa (bs : Bytes) (h : ∀ b ∈ bs, b < 256) :
    atob (btoa bs) = Except.ok bs := by
  have key : ∀ (m : Nat) (bs : Bytes), bs.length ≤ m → (∀ b ∈ bs, b < 256) →
      atob (btoa bs) = Except.ok bs := by
    intro m
    induction m with
    | zero =>
      intro bs hlen _
      have : bs = [] := List.length_eq_zero.mp (Nat.le_zero.mp hlen)
      subst this
      rfl
    | succ m ih =>
      intro bs hlen hb
      match bs with
      | [] => rfl
      | [x] =>
        have hx : x < 256 := hb x (by simp)
        rw [btoa, atob]
        rw [b64Index_b64Char ⟨x >>> 2, b64i1_lt x hx⟩]
        rw [b64Index_b64Char ⟨(x &&& 3) <<< 4, by
          rw [and3_eq, Nat.shiftLeft_eq]
          omega⟩]
        dsimp only
        rw [if_pos ⟨rfl, rfl, rfl⟩]
        rw [b64_byte1 x ((x &&& 3) <<< 4) hx
          (by rw [and3_eq, Nat.shiftLeft_eq]; omega)
          (by rw [and3_eq, Nat.shiftLeft_eq]; omega)]
      | [x, y] =>
        have hx : x < 256 := hb x (by simp)
        have hy : y < 256 := hb y (by simp)
        rw [btoa, atob]
        rw [b64Index_b64Char ⟨x >>> 2, b64i1_lt x hx⟩]
        rw [b64Index_b64Char ⟨((x &&& 3) <<< 4) ||| (y >>> 4), b64i2_lt x y hx hy⟩]
        dsimp only
        rw [if_neg (by
          intro hcon
          exact b64Char_ne_pad ⟨(y &&& 15) <<< 2, by
            rw [and15_eq, Nat.shiftLeft_eq]; omega⟩ hcon.1)]
        rw [if_pos ⟨rfl, rfl⟩]
        rw [b64Index_b64Char ⟨(y &&& 15) <<< 2, by
          rw [and15_eq, Nat.shiftLeft_eq]
          omega⟩]
        dsimp only
        rw [b64_byte1 x (((x &&& 3) <<< 4) ||| (y >>> 4)) hx
          (by rw [b64i2_eq x y hy]; omega) (b64i2_lt x y hx hy)]
        rw [b64_byte2 y (((x &&& 3) <<< 4) ||| (y >>> 4)) ((y &&& 15) <<< 2) hy
          (by rw [b64i2_eq x y hy]; omega)
          (by rw [and15_eq, Nat.shiftLeft_eq]; omega)
          (by rw [and15_eq, Nat.shiftLeft_eq]; omega)]
      | x :: y :: z :: rest =>
        have hx : x < 256 := hb x (by simp)
        have hy : y < 256 := hb y (by simp)
        have hz : z < 256 := hb z (by simp)
        rw [btoa, atob]
        rw [b64Index_b64Char ⟨x >>> 2, b64i1_lt x hx⟩]
        rw [b64Index_b64Char ⟨((x &&& 3) <<< 4) ||| (y >>> 4), b64i2_lt x y hx hy⟩]
        dsimp only
        rw [if_neg (by
          intro hcon
          exact b64Char_ne_pad ⟨((y &&& 15) <<< 2) ||| (z >>> 6),
            b64i3_lt y z hy hz⟩ hcon.1)]
        rw [if_neg (by
          intro hcon
          exact b64Char_ne_pad ⟨z &&& 63, by rw [and63_eq]; omega⟩ hcon.1)]
        rw [b64Index_b64Char ⟨((y &&& 15) <<< 2) ||| (z >>> 6), b64i3_lt y z hy hz⟩]
        rw [b64Index_b64Char ⟨z &&& 63, by rw [and63_eq]; omega⟩]
        dsimp only
        rw [ih rest (by simp at hlen; omega) (fun b hbm => hb b (by simp [hbm]))]
        dsimp only
        rw [b64_byte1 x (((x &&& 3) <<< 4) ||| (y >>> 4)) hx
          (by rw [b64i2_eq x y hy]; omega) (b64i2_lt x y hx hy)]
        rw [b64_byte2 y (((x &&& 3) <<< 4) ||| (y >>> 4))
          (((y &&& 15) <<< 2) ||| (z >>> 6)) hy
          (by rw [b64i2_eq x y hy]; omega)
          (by rw [b64i3_eq y z hz]; omega)
          (b64i3_lt y z hy hz)]
        rw [b64_byte3 z (((y &&& 15) <<< 2) ||| (z >>> 6)) hz
          (by rw [b64i3_eq y z hz]; omega)]
  exact key bs.length bs le_rfl h

theorem isB64Char_b64Char (i : Nat) : isB64Char (b64Char i) = true := by
  by_cases h : i < 64
  · exact (by decide : ∀ j : Fin 64, isB64Char (b64Char (j : Nat)) = true) ⟨i, h⟩
  · have : b64Char i = '=' := by
      rw [b64Char]
      exact List.getD_eq_default _ _ (by simp [b64Alphabet]; omega)
    rw [this]
    decide

theorem btoa_mem (bs : Bytes) : ∀ c ∈ btoa bs, isB64Char c = true := by
  have key : ∀ (m : Nat) (bs : Bytes), bs.length ≤ m →
      ∀ c ∈ btoa bs, isB64Char c = true := by
    intro m
    induction m with
    | zero =>
      intro bs hlen
      have : bs = [] := List.length_eq_zero.mp (Nat.le_zero.mp hlen)
      subst this
      intro c hc
      simp [btoa] at hc
    | succ m ih =>
      intro bs hlen c hc
      match bs with
      | [] => simp [btoa] at hc
      | [x] =>
        rw [btoa] at hc
        simp at hc
        rcases hc with h | h | h
        all_goals first
          | (rw [h]; exact isB64Char_b64Char _)
          | (rw [h]; decide)
      | [x, y] =>
        rw [btoa] at hc
        simp at hc
        rcases hc with h | h | h | h
        all_goals first
          | (rw [h]; exact isB64Char_b64Char _)
          | (rw [h]; decide)
      | x :: y :: z :: rest =>
        rw [btoa] at hc
        simp at hc
        rcases hc with h | h | h | h | h
        · rw [h]; exact isB64Char_b64Char _
        · rw [h]; exact isB64Char_b64Char _
        · rw [h]; exact isB64Char_b64Char _
        · rw [h]; exact isB64Char_b64Char _
        · exact ih rest (by simp at hlen; omega) c h
  exact key bs.length bs le_rfl

theorem wrap64Fuel_filter (p : Char → Bool) (hp : p '\n' = false) :
    ∀ (fuel : Nat) (s : List Char),
      (wrap64Fuel fuel s).filter p = s.filter p := by
  intro fuel
  induction fuel with
  | zero => intro s; rfl
  | succ fuel ih =>
    intro s
    rw [wrap64Fuel]
    by_cases h : 64 ≤ s.length
    · rw [if_pos h]
      rw [List.filter_append, List.filter_cons, hp, ih (s.drop 64)]
      rw [if_neg (by simp)]
      rw [← List.filter_append, List.take_append_drop]
    · rw [if_neg h]

theorem wrap64Fuel_mem : ∀ (fuel : Nat) (s : List Char) (c : Char),
    c ∈ wrap64Fuel fuel s → c ∈ s ∨ c = '\n' := by
  intro fuel
  induction fuel with
  | zero => intro s c hc; exact Or.inl hc
  | succ fuel ih =>
    intro s c hc
    rw [wrap64Fuel] at hc
    by_cases h : 64 ≤ s.length
    · rw [if_pos h] at hc
      simp only [List.mem_append, List.mem_cons] at hc
      rcases hc with h1 | h1 | h1
      · exact Or.inl (List.mem_of_mem_take h1)
      · exact Or.inr h1
      · rcases ih (s.drop 64) c h1 with h2 | h2
        · exact Or.inl (List.mem_of_mem_drop h2)
        · exact Or.inr h2
    · rw [if_neg h] at hc
      exact Or.inl hc

theorem matchesAt_append (pre pat rest : List Char) :
    matchesAt (pre ++ (pat ++ rest)) pre.length pat = true := by
  rw [matchesAt, List.drop_left, List.take_left]
  simp

theorem matchesAt_zero (pat rest : List Char) :
    matchesAt (pat ++ rest) 0 pat = true := by
  have := matchesAt_append [] pat rest
  simpa using this

theorem takeWhile_no_dash (l rest : List Char) (h : ∀ c ∈ l, c ≠ '-') :
    (l ++ '-' :: rest).takeWhile (fun c => c ≠ '-') = l := by
  induction l with
  | nil => simp [List.takeWhile]
  | cons a l ih =>
    rw [List.cons_append, List.takeWhile_cons]
    rw [if_pos (by simp [h a (by simp)])]
    rw [ih (fun c hc => h c (by simp [hc]))]

theorem matchesAt_false_of_ne (s pat2 : List Char) (j : Nat) (c : Char)
    (cs : List Char) (hdrop : s.drop j = c :: cs) (hc : c ≠ '-') :
    matchesAt s j ('-' :: pat2) = false := by
  rw [matchesAt, hdrop]
  simp only [List.length_cons, List.take_succ_cons]
  simp [hc]

theorem findEnd_found (s label : List Char) (b : Nat)
    (hm : matchesAt s b (litEND ++ label ++ dashes5) = true) :
    ∀ (fuel a : Nat), a ≤ b → b - a < fuel →
      (∀ j, a ≤ j → j < b → matchesAt s j (litEND ++ label ++ dashes5) = false) →
      findEnd s label a fuel = some b := by
  intro fuel
  induction fuel with
  | zero => intro a _ hfuel _; omega
  | succ fuel ih =>
    intro a hab hfuel hno
    rw [findEnd]
    by_cases hx : a = b
    · subst hx
      rw [if_pos hm]
    · rw [if_neg (by rw [hno a le_rfl (by omega)]; simp)]
      exact ih (a + 1) (by omega) (by omega) (fun j h1 h2 => hno j (by omega) h2)

theorem decodePem_arrayBufferToPem (lb : List Char) (data : Bytes)
    (hne : lb ≠ []) (hdash : ∀ c ∈ lb, c ≠ '-') (htrim : jsTrim lb = lb)
    (hdata : ∀ b ∈ data, b < 256) :
    decodePem (arrayBufferToPem lb data) = Except.ok (lb, data) := by
  have hW : ∀ c ∈ wrap64 (btoa data), c ≠ '-' := by
    intro c hc
    rw [wrap64] at hc
    rcases wrap64Fuel_mem _ _ c hc with h1 | h1
    · have hbc := btoa_mem data c h1
      intro heq
      rw [heq] at hbc
      exact absurd hbc (by decide)
    · rw [h1]
      decide
  have hmid : ∀ c ∈ ('\n' :: (wrap64 (btoa data) ++ ['\n'])), c ≠ '-' := by
    intro c hc
    simp only [List.mem_cons, List.mem_append, List.mem_singleton,
      List.not_mem_nil, or_false] at hc
    rcases hc with h1 | h1 | h1
    · rw [h1]; decide
    · exact hW c h1
    · rw [h1]; decide
  have hsplit : arrayBufferToPem lb data =
      ((litBEGIN ++ lb) ++ dashes5) ++
        (('\n' :: (wrap64 (btoa data) ++ ['\n'])) ++ ((litEND ++ lb) ++ dashes5)) := by
    simp [arrayBufferToPem]
  have hplen : (arrayBufferToPem lb data).length =
      32 + 2 * lb.length + (wrap64 (btoa data)).length := by
    simp [arrayBufferToPem, litBEGIN, litEND, dashes5]
    omega
  have hmEnd : matchesAt (arrayBufferToPem lb data)
      (18 + lb.length + (wrap64 (btoa data)).length)
      (litEND ++ lb ++ dashes5) = true := by
    have h1 := matchesAt_append
      ((((litBEGIN ++ lb) ++ dashes5) ++ ('\n' :: (wrap64 (btoa data) ++ ['\n']))))
      ((litEND ++ lb) ++ dashes5) []
    rw [List.append_nil] at h1
    have hX : ((((litBEGIN ++ lb) ++ dashes5) ++
        ('\n' :: (wrap64 (btoa data) ++ ['\n']))) ++ ((litEND ++ lb) ++ dashes5)) =
        arrayBufferToPem lb data := by
      simp [arrayBufferToPem]
    rw [hX] at h1
    have hY : ((((litBEGIN ++ lb) ++ dashes5) ++
        ('\n' :: (wrap64 (btoa data) ++ ['\n'])))).length =
        18 + lb.length + (wrap64 (btoa data)).length := by
      simp [litBEGIN, dashes5]
      omega
    rw [hY] at h1
    exact h1
  have hno : ∀ j, 16 + lb.length ≤ j →
      j < 18 + lb.length + (wrap64 (btoa data)).length →
      matchesAt (arrayBufferToPem lb data) j (litEND ++ lb ++ dashes5) = false := by
    intro j hj1 hj2
    obtain ⟨m, rfl⟩ : ∃ m, j = 16 + lb.length + m :=
      ⟨j - (16 + lb.length), by omega⟩
    have hdropj : (arrayBufferToPem lb data).drop (16 + lb.length + m) =
        ('\n' :: (wrap64 (btoa data) ++ ['\n'])).drop m ++ ((litEND ++ lb) ++ dashes5) := by
      rw [hsplit]
      rw [show 16 + lb.length + m = ((litBEGIN ++ lb) ++ dashes5).length + m from by
        simp [litBEGIN, dashes5]
        omega]
      rw [← List.drop_drop, List.drop_left]
      exact List.drop_append_of_le_length (by simp; omega)
    have hex : ∃ c cs, ('\n' :: (wrap64 (btoa data) ++ ['\n'])).drop m = c :: cs := by
      cases hd : ('\n' :: (wrap64 (btoa data) ++ ['\n'])).drop m with
      | nil =>
        exfalso
        have := congrArg List.length hd
        simp at this
        omega
      | cons c cs => exact ⟨c, cs, rfl⟩
    obtain ⟨c, cs, hd⟩ := hex
    have hcM : c ∈ ('\n' :: (wrap64 (btoa data) ++ ['\n'])) :=
      List.mem_of_mem_drop (by rw [hd]; exact List.mem_cons_self c cs)
    have hcne : c ≠ '-' := hmid c hcM
    have hdropfull : (arrayBufferToPem lb data).drop (16 + lb.length + m) =
        c :: (cs ++ ((litEND ++ lb) ++ dashes5)) := by
      rw [hdropj, hd]
      rfl
    have hTpat : litEND ++ lb ++ dashes5 =
        '-' :: (['-', '-', '-', '-', 'E', 'N', 'D', ' '] ++ (lb ++ dashes5)) := by
      simp [litEND]
    rw [hTpat]
    exact matchesAt_false_of_ne _ _ _ c (cs ++ ((litEND ++ lb) ++ dashes5)) hdropfull hcne
  have hfind : findEnd (arrayBufferToPem lb data) lb (16 + lb.length)
      ((arrayBufferToPem lb data).length + 1) =
      some (18 + lb.length + (wrap64 (btoa data)).length) := by
    apply findEnd_found _ _ _ hmEnd
    · omega
    · rw [hplen]
      omega
    · exact hno
  have hmB : matchesAt (arrayBufferToPem lb data) 0 litBEGIN = true := by
    have hshape0 : arrayBufferToPem lb data = litBEGIN ++
        ((lb ++ dashes5) ++ '\n' :: (wrap64 (btoa data) ++ '\n' ::
          ((litEND ++ lb) ++ dashes5))) := by
      simp [arrayBufferToPem]
    rw [hshape0]
    exact matchesAt_zero _ _
  have hshapeB : arrayBufferToPem lb data = litBEGIN ++
      (lb ++ ('-' :: ('-' :: '-' :: '-' :: '-' :: ('\n' :: (wrap64 (btoa data) ++
        '\n' :: ((litEND ++ lb) ++ dashes5)))))) := by
    simp [arrayBufferToPem, dashes5]
  have hrun : ((arrayBufferToPem lb data).drop (0 + 11)).takeWhile
      (fun c => c ≠ '-') = lb := by
    rw [hshapeB]
    rw [show (0 + 11 : Nat) = litBEGIN.length from rfl]
    rw [List.drop_left]
    exact takeWhile_no_dash lb _ hdash
  obtain ⟨k, hk⟩ : ∃ k, lb.length = k + 1 := by
    cases lb with
    | nil => exact absurd rfl hne
    | cons a l => exact ⟨l.length, rfl⟩
  have htake : lb.take (k + 1) = lb := by
    rw [← hk]
    exact List.take_length lb
  have hmDash : matchesAt (arrayBufferToPem lb data) (0 + 11 + (k + 1)) dashes5 = true := by
    have h1 := matchesAt_append (litBEGIN ++ lb) dashes5
      ('\n' :: (wrap64 (btoa data) ++ '\n' :: ((litEND ++ lb) ++ dashes5)))
    have hX : ((litBEGIN ++ lb) ++ (dashes5 ++ ('\n' :: (wrap64 (btoa data) ++
        '\n' :: ((litEND ++ lb) ++ dashes5))))) = arrayBufferToPem lb data := by
      simp [arrayBufferToPem]
    rw [hX] at h1
    rw [show (litBEGIN ++ lb).length = 0 + 11 + (k + 1) from by
      simp [litBEGIN]
      omega] at h1
    exact h1
  have htry : tryLabel (arrayBufferToPem lb data) 0 lb (k + 1) =
      some (lb, 16 + lb.length, 18 + lb.length + (wrap64 (btoa data)).length) := by
    rw [tryLabel]
    rw [htake]
    rw [if_pos hmDash]
    rw [show (0 + 11 + (k + 1) + 5 : Nat) = 16 + lb.length from by omega]
    rw [hfind]
  have hmatch : regexMatchAt (arrayBufferToPem lb data) 0 =
      some (lb, 16 + lb.length, 18 + lb.length + (wrap64 (btoa data)).length) := by
    rw [regexMatchAt]
    rw [if_pos hmB]
    dsimp only
    rw [hrun]
    rw [hk] at htry ⊢
    exact htry
  have hsearch : regexSearch (arrayBufferToPem lb data) 0
      ((arrayBufferToPem lb data).length + 1) =
      some (lb, 16 + lb.length, 18 + lb.length + (wrap64 (btoa data)).length) := by
    rw [regexSearch, hmatch]
  have hnl : isB64Char '\n' = false := by decide
  have hfilter : (('\n' :: (wrap64 (btoa data) ++ ['\n']))).filter isB64Char =
      btoa data := by
    rw [List.filter_cons, hnl]
    rw [if_neg (by simp)]
    rw [List.filter_append]
    rw [wrap64, wrap64Fuel_filter isB64Char hnl]
    rw [List.filter_eq_self.mpr (btoa_mem data)]
    have h2 : (['\n'] : List Char).filter isB64Char = [] := by
      rw [List.filter_cons, hnl]
      simp
    rw [h2, List.append_nil]
  have hdropS : (arrayBufferToPem lb data).drop (16 + lb.length) =
      ('\n' :: (wrap64 (btoa data) ++ ['\n'])) ++ ((litEND ++ lb) ++ dashes5) := by
    rw [hsplit]
    rw [show (16 + lb.length : Nat) = ((litBEGIN ++ lb) ++ dashes5).length from by
      simp [litBEGIN, dashes5]
      omega]
    exact List.drop_left _ _
  have htakeS : (('\n' :: (wrap64 (btoa data) ++ ['\n'])) ++
      ((litEND ++ lb) ++ dashes5)).take ((wrap64 (btoa data)).length + 2) =
      '\n' :: (wrap64 (btoa data) ++ ['\n']) := by
    rw [show (wrap64 (btoa data)).length + 2 =
      ('\n' :: (wrap64 (btoa data) ++ ['\n'])).length from by simp]
    exact List.take_left _ _
  rw [decodePem, hsearch]
  dsimp only
  rw [show (18 + lb.length + (wrap64 (btoa data)).length) - (16 + lb.length) =
    (wrap64 (btoa data)).length + 2 from by omega]
  rw [hdropS, htakeS, hfilter]
  rw [atob_btoa data hdata]
  rw [htrim]

theorem encodeAsn1Length_mem (L : Nat) (hL : L < 2 ^ 31) :
    ∀ b ∈ encodeAsn1Length L, b < 256 := by
  intro b hb
  rw [encodeAsn1Length] at hb
  by_cases h : L < 0x80
  · rw [if_pos h] at hb
    simp at hb
    omega
  · rw [if_neg h] at hb
    simp only [List.mem_cons] at hb
    rcases hb with h1 | h1
    · have hlen : (beBytes L).length ≤ 4 :=
        beBytes_length_le 4 L (by omega)
      rw [h1]
      have h2 : (0x80 : Nat) ||| (beBytes L).length < 2 ^ 8 :=
        Nat.or_lt_two_pow (by omega) (by omega)
      omega
    · exact beBytes_lt L b h1

theorem encodeAsn1_mem (tag : Nat) (content : Bytes) (ht : tag < 256)
    (hL : content.length < 2 ^ 31) (hc : ∀ b ∈ content, b < 256) :
    ∀ b ∈ encodeAsn1 tag content, b < 256 := by
  intro b hb
  rw [encodeAsn1] at hb
  simp only [List.mem_cons, List.mem_append] at hb
  rcases hb with (h1 | h1) | h1
  · omega
  · exact encodeAsn1Length_mem content.length hL b h1
  · exact hc b h1

theorem ecPrivateKeyToPkcs8_mem (s : Bytes) (hs : s.length < 2 ^ 31 - 64)
    (hb : ∀ b ∈ s, b < 256) :
    ∀ b ∈ ecPrivateKeyToPkcs8 s, b < 256 := by
  have hoct : ∀ b ∈ encodeAsn1 0x04 s, b < 256 :=
    encodeAsn1_mem 0x04 s (by omega) (by omega) hb
  have hbody : ∀ b ∈ pkcs8Body s, b < 256 := by
    intro b hbm
    rw [pkcs8Body_eq] at hbm
    simp only [List.mem_append] at hbm
    rcases hbm with h1 | h1 | h1
    · have : b ∈ ([0x02, 0x01, 0x00] : Bytes) := by
        have he : pkcs8Version = [0x02, 0x01, 0x00] := rfl
        rw [← he]
        exact h1
      simp at this
      omega
    · have he : pkcs8Algorithm = [0x30, 0x13, 0x06, 0x07, 0x2a, 0x86, 0x48,
        0xce, 0x3d, 0x02, 0x01, 0x06, 0x08, 0x2a, 0x86, 0x48, 0xce, 0x3d,
        0x03, 0x01, 0x07] := rfl
      rw [he] at h1
      simp at h1
      rcases h1 with h | h
      · omega
      · omega
    · exact hoct b h1
  rw [ecPrivateKeyToPkcs8]
  apply encodeAsn1_mem 0x30 (pkcs8Body s) (by omega)
  · rw [pkcs8Body_length]
    have := encodeAsn1Length_length_le s.length (by omega)
    omega
  · exact hbody

/-- C9 counterexample: the PEM decoder cannot recover a label that
    contains a dash, because the label group of the regular expression
    excludes the dash character; the encoder happily emits such a label,
    so decode of encode fails on it. -/
theorem decodePem_dash_label_fails :
    decodePem (arrayBufferToPem ['-'] []) = Except.error () := by
  rfl

/-- C9 amended: the key-codec round-trip laws hold on the codec's actual
    domain: decoding the PEM text produced by the PEM encoder recovers the
    label and the bytes for every nonempty label free of dashes and fixed
    by trim and every byte string, and pkcs8ToEcPrivateKey inverts
    ecPrivateKeyToPkcs8 for every SEC1 body within the decoder's 31-bit
    length arithmetic. -/
theorem keyCodec_roundtrip_spec (lb : List Char) (data s : Bytes)
    (hne : lb ≠ []) (hdash : ∀ c ∈ lb, c ≠ '-') (htrim : jsTrim lb = lb)
    (hdata : ∀ b ∈ data, b < 256) (hs : s.length < 2 ^ 31 - 64) :
    decodePem (arrayBufferToPem lb data) = Except.ok (lb, data) ∧
    pkcs8ToEcPrivateKey (ecPrivateKeyToPkcs8 s) = Except.ok s :=
  ⟨decodePem_arrayBufferToPem lb data hne hdash htrim hdata,
   pkcs8_roundtrip s hs⟩

/-- Witness for C9 at a concrete label, PEM payload and SEC1 body. -/
theorem keyCodec_roundtrip_spec_witness :
    (['A'] : List Char) ≠ [] ∧ (∀ c ∈ (['A'] : List Char), c ≠ '-') ∧
    jsTrim ['A'] = ['A'] ∧ (∀ b ∈ ([1, 2] : Bytes), b < 256) ∧
    ([7] : Bytes).length < 2 ^ 31 - 64 ∧
    (decodePem (arrayBufferToPem ['A'] [1, 2]) = Except.ok (['A'], [1, 2]) ∧
     pkcs8ToEcPrivateKey (ecPrivateKeyToPkcs8 [7]) = Except.ok [7]) :=
  ⟨by decide, by decide, by decide, by decide, by decide,
   keyCodec_roundtrip_spec ['A'] [1, 2] [7] (by decide) (by decide)
     (by decide) (by decide) (by decide)⟩

/-- C7: importPrivateKeyPem accepts a PKCS8 container labelled PRIVATE
    KEY as well as a SEC1 container labelled EC PRIVATE KEY, and hands
    subtle.importKey the same PKCS8 bytes for a SEC1 body and for its
    PKCS8 conversion; exportPrivateKeyPem emits the EC PRIVATE KEY
    container. -/
theorem privateKeyPem_import_export_spec (p s : Bytes)
    (hp : ∀ b ∈ p, b < 256) (hs1 : ∀ b ∈ s, b < 256)
    (hs2 : s.length < 2 ^ 31 - 64) :
    importPrivateKeyPem (arrayBufferToPem labelPkcs8 p) = Except.ok p ∧
    importPrivateKeyPem (arrayBufferToPem labelSec1 s) =
      importPrivateKeyPem (arrayBufferToPem labelPkcs8 (ecPrivateKeyToPkcs8 s)) ∧
    pkcs8ToEcPrivateKey (ecPrivateKeyToPkcs8 s) = Except.ok s ∧
    exportPrivateKeyPem (ecPrivateKeyToPkcs8 s) =
      Except.ok (arrayBufferToPem labelSec1 s) := by
  have hdecP : decodePem (arrayBufferToPem labelPkcs8 p) =
      Except.ok (labelPkcs8, p) :=
    decodePem_arrayBufferToPem labelPkcs8 p (by decide) (by decide)
      (by decide) hp
  have hdecS : decodePem (arrayBufferToPem labelSec1 s) =
      Except.ok (labelSec1, s) :=
    decodePem_arrayBufferToPem labelSec1 s (by decide) (by decide)
      (by decide) hs1
  have hdecP2 : decodePem (arrayBufferToPem labelPkcs8 (ecPrivateKeyToPkcs8 s)) =
      Except.ok (labelPkcs8, ecPrivateKeyToPkcs8 s) :=
    decodePem_arrayBufferToPem labelPkcs8 _ (by decide) (by decide)
      (by decide) (ecPrivateKeyToPkcs8_mem s hs2 hs1)
  refine ⟨?_, ?_, pkcs8_roundtrip s hs2, ?_⟩
  · rw [importPrivateKeyPem, hdecP]
    dsimp only
    rw [if_pos rfl]
  · rw [importPrivateKeyPem, hdecS, importPrivateKeyPem, hdecP2]
    dsimp only
    rw [if_neg (show ¬labelSec1 = labelPkcs8 by decide), if_pos rfl, if_pos rfl]
  · rw [exportPrivateKeyPem, pkcs8_roundtrip s hs2]

/-- Witness for C7 at concrete PKCS8 and SEC1 bodies. -/
theorem privateKeyPem_import_export_spec_witness :
    (∀ b ∈ ([9] : Bytes), b < 256) ∧ (∀ b ∈ ([5] : Bytes), b < 256) ∧
    ([5] : Bytes).length < 2 ^ 31 - 64 ∧
    (importPrivateKeyPem (arrayBufferToPem labelPkcs8 [9]) = Except.ok [9] ∧
     importPrivateKeyPem (arrayBufferToPem labelSec1 [5]) =
       importPrivateKeyPem
         (arrayBufferToPem labelPkcs8 (ecPrivateKeyToPkcs8 [5])) ∧
     pkcs8ToEcPrivateKey (ecPrivateKeyToPkcs8 [5]) = Except.ok [5] ∧
     exportPrivateKeyPem (ecPrivateKeyToPkcs8 [5]) =
       Except.ok (arrayBufferToPem labelSec1 [5])) :=
  ⟨by decide, by decide, by decide,
   privateKeyPem_import_export_spec [9] [5] (by decide) (by decide)
     (by decide)⟩

end TslaBle
